import Mathlib

/-!
BugBountyGoApiWrapper: the change-detection pipeline.

A shallow embedding of the Go sources (`redismethods/redis.go`,
`subfinder/subfinder.go`, `telegram/telegramnotification.go`,
`hackerone/hackerone.go`) together with theorems about the embedded
functions.

Conventions.
* A Go `[]string` is a `List String`; `append(s, x)` is `s ++ [x]`.
* A Go `map[string]bool` is an association list with distinct keys
  (`GoMap`); a lookup of an absent key yields the zero value `false`.
* `for k := range m` visits the keys of `m` in an order the language leaves
  unspecified: each such loop takes a `RangeOrder`, an arbitrary
  rearrangement of the key list.
-/

namespace BugBounty

/-! ## Go maps -/

/-- A Go `map[string]bool` as an association list (first binding of a key wins;
`mapSet` never creates a second binding). -/
abbrev GoMap := List (String × Bool)

/-- Map read `m[k]`: the stored value, or the zero value `false` when `k` is absent. -/
def mapGet (m : GoMap) (k : String) : Bool :=
  match m.lookup k with
  | some v => v
  | none => false

/-- Map write `m[k] = v`: overwrite the binding of `k` when present, else add one. -/
def mapSet (m : GoMap) (k : String) (v : Bool) : GoMap :=
  if m.any (fun p => p.1 == k) then
    m.map (fun p => if p.1 == k then (k, v) else p)
  else
    m ++ [(k, v)]

/-- Keys of the map, in storage order. -/
def mapKeys (m : GoMap) : List String := m.map Prod.fst

/-- Iteration order of one `for k := range m` loop: any rearrangement of the keys. -/
structure RangeOrder where
  visit : List String → List String
  perm : ∀ ks, (visit ks).Perm ks

/-- Iteration in storage order. -/
def RangeOrder.storage : RangeOrder := ⟨fun ks => ks, fun _ => List.Perm.refl _⟩

/-- Iteration in reverse storage order. -/
def RangeOrder.reversed : RangeOrder := ⟨fun ks => ks.reverse, fun ks => List.reverse_perm ks⟩

/-! ## redismethods/redis.go -/

/-- Function `GetUniqueURLs` (redis.go 17-29): one pass over `urls`, carrying the
membership map `uniqueMap` and the output slice `unique`. -/
def GetUniqueURLs (urls : List String) : List String :=
  (urls.foldl
    (fun (st : GoMap × List String) url =>
      if !mapGet st.1 url then (mapSet st.1 url true, st.2 ++ [url]) else st)
    (([] : GoMap), ([] : List String))).2

/-- The loop `for _, url := range xs { m[url] = true }` starting from an empty map. -/
def buildSet (xs : List String) : GoMap :=
  xs.foldl (fun m url => mapSet m url true) []

/-- Function `CompareUniqueURLs` (redis.go 65-92). `ordCurrent` and `ordPrevious` are the
iteration orders of the two `range` loops over `currentMap` and `previousMap`. -/
def CompareUniqueURLs (ordCurrent ordPrevious : RangeOrder)
    (previous current : List String) : List String × List String :=
  let previousMap := buildSet previous
  let currentMap := buildSet current
  let added := (ordCurrent.visit (mapKeys currentMap)).foldl
    (fun added url => if !mapGet previousMap url then added ++ [url] else added) []
  let removed := (ordPrevious.visit (mapKeys previousMap)).foldl
    (fun removed url => if !mapGet currentMap url then removed ++ [url] else removed) []
  (added, removed)

/-- Specification of "keep the first occurrence of each item": position `i` of `S`
survives exactly when `S[i]` does not occur among the first `i` items. -/
def firstOccurrences (S : List String) : List String :=
  (S.enum.filter (fun p => decide (p.2 ∉ S.take p.1))).map Prod.snd

/-- Every stored value is `true` (the only value the sources ever write). -/
def AllTrue (m : GoMap) : Prop := ∀ p ∈ m, p.2 = true

/-- One iteration of the `GetUniqueURLs` loop. -/
def uniqueStep (st : GoMap × List String) (url : String) : GoMap × List String :=
  if !mapGet st.1 url then (mapSet st.1 url true, st.2 ++ [url]) else st


/-! ## Go integers and abnormal termination -/

/-- Two's-complement wrap-around of a 64-bit Go `int` (also `int64`, `time.Duration`). -/
def wrapInt (x : Int) : Int :=
  (x + 9223372036854775808) % 18446744073709551616 - 9223372036854775808

/-- Go integer division `a / b` for `b ≠ 0`: truncation toward zero, wrapped to 64 bits. -/
def goDiv (a b : Int) : Int := wrapInt (Int.tdiv a b)

/-- Ways a modelled Go function can fail to return: a run-time panic, or the model's loop
budget running out. -/
inductive Halt where
  | panic (reason : String)
  | fuel
  deriving DecidableEq, Repr

/-! ## subfinder/subfinder.go: chunked announcements -/

/-- Function `formatChunkMessage` (subfinder.go 250-255):
`Sprintf("%s (%d/%d) - %d domains:\n%s", title, chunkNum, totalChunks, len(domains), Join(domains, "\n"))`. -/
def formatChunkMessage (domains : List String) (title : String) (chunkNum totalChunks : Int) :
    String :=
  title ++ " (" ++ toString chunkNum ++ "/" ++ toString totalChunks ++ ") - " ++
    toString domains.length ++ " domains:\n" ++ "\n".intercalate domains

/-- What one iteration of the `sendInChunks` loop publishes: the slice `chunk`, its label
`chunkNumber`, and the text handed to `rdb.Publish`. -/
structure ChunkSend where
  chunk : List String
  chunkNumber : Int
  message : String
  deriving DecidableEq, Repr

/-- The loop `for i := 0; i < totalDomains; i += chunkSize` of `sendInChunks`
(subfinder.go 223-246), from loop variable `i`, with `sent` the publications so far.
`domains[i:end]` panics unless `0 ≤ i ≤ end` (`end ≤ len(domains)` holds after the
clamp). The outcome of `rdb.Publish` only selects which line is logged. -/
def sendLoop (domains : List String) (title : String) (chunkSize totalDomains totalChunks : Int) :
    Nat → Int → List ChunkSend → Except Halt (List ChunkSend)
  | 0, _, _ => .error Halt.fuel
  | fuel + 1, i, sent =>
    if i < totalDomains then
      let end0 := wrapInt (i + chunkSize)
      let end1 := if end0 > totalDomains then totalDomains else end0
      if i < 0 ∨ end1 < i then
        .error (Halt.panic "slice bounds out of range")
      else
        let chunk := (domains.drop i.toNat).take (end1 - i).toNat
        let chunkNumber := wrapInt (goDiv i chunkSize + 1)
        let message := formatChunkMessage chunk title chunkNumber totalChunks
        sendLoop domains title chunkSize totalDomains totalChunks fuel
          (wrapInt (i + chunkSize)) (sent ++ [⟨chunk, chunkNumber, message⟩])
    else
      .ok sent

/-- The assignment `totalChunks := (totalDomains + chunkSize - 1) / chunkSize`, in 64-bit
arithmetic. -/
def totalChunksOf (totalDomains chunkSize : Int) : Int :=
  goDiv (wrapInt (wrapInt (totalDomains + chunkSize) - 1)) chunkSize

/-- Function `sendInChunks` (subfinder.go 217-247): the publications, in emission order.
Each is followed by a 3100 ms sleep. The loop budget `len(domains) + 1` is never exhausted when
`chunkSize ≥ 1` (theorem `sendLoop_spec`). -/
def sendInChunks (domains : List String) (title : String) (chunkSize : Int) :
    Except Halt (List ChunkSend) :=
  if chunkSize = 0 then
    .error (Halt.panic "integer divide by zero")
  else
    sendLoop domains title chunkSize domains.length
      (totalChunksOf domains.length chunkSize) (domains.length + 1) 0 []

/-! ## telegram/telegramnotification.go: delivery with retry -/

/-- What the delivery goroutine of one message does, in order. Durations are
`time.Duration` values, i.e. nanoseconds. -/
inductive DeliveryEvent where
  /-- The call `sendToTelegram(botToken, chatID, message)` made at this attempt. -/
  | attempt (n : Int)
  /-- The log line "Message sent successfully (attempt n)", followed by `return`. -/
  | sent (n : Int)
  /-- The log line "Attempt n failed". -/
  | failed (n : Int)
  /-- The call `time.Sleep(retryDelay)`. -/
  | sleep (d : Int)
  /-- The log line "Failed to send message after maxRetries attempts". -/
  | gaveUp (maxRetries : Int)
  deriving DecidableEq, Repr

/-- The constant `time.Second`, in nanoseconds. -/
def second : Int := 1000000000

/-- The loop `for attempt := 1; attempt <= maxRetries; attempt++` of the delivery goroutine
(telegramnotification.go 50-66). `deliver c` tells whether the `c`-th call of
`sendToTelegram` made by this goroutine (counting from 0) returns a nil error. -/
def retryLoop (deliver : Nat → Bool) (maxRetries : Int) :
    Nat → Int → Int → Nat → List DeliveryEvent → Except Halt (List DeliveryEvent)
  | 0, _, _, _, _ => .error Halt.fuel
  | fuel + 1, attempt, retryDelay, calls, events =>
    if attempt ≤ maxRetries then
      if deliver calls then
        .ok (events ++ [DeliveryEvent.attempt attempt, DeliveryEvent.sent attempt])
      else
        let events := events ++ [DeliveryEvent.attempt attempt, DeliveryEvent.failed attempt]
        if attempt < maxRetries then
          retryLoop deliver maxRetries fuel (wrapInt (attempt + 1)) (wrapInt (retryDelay * 2))
            (calls + 1) (events ++ [DeliveryEvent.sleep retryDelay])
        else
          retryLoop deliver maxRetries fuel (wrapInt (attempt + 1)) retryDelay (calls + 1) events
    else
      .ok (events ++ [DeliveryEvent.gaveUp maxRetries])

/-- The body of the goroutine started for each received message
(telegramnotification.go 43-67): `maxRetries := 3`, `retryDelay := time.Second`. The loop
budget covers the three attempts and the final loop test. -/
def deliveryTask (deliver : Nat → Bool) : Except Halt (List DeliveryEvent) :=
  retryLoop deliver 3 4 1 second 0 []

/-- Number of calls of `sendToTelegram` in a trace. -/
def attemptsOf (events : List DeliveryEvent) : Nat :=
  (events.filter (fun e => match e with
    | DeliveryEvent.attempt _ => true
    | _ => false)).length

/-- The durations slept, in order. -/
def delaysOf (events : List DeliveryEvent) : List Int :=
  events.filterMap (fun e => match e with
    | DeliveryEvent.sleep d => some d
    | _ => none)

/-- The task reported success: it logged "Message sent successfully". -/
def succeeded (events : List DeliveryEvent) : Bool :=
  events.any (fun e => match e with
    | DeliveryEvent.sent _ => true
    | _ => false)

/-- The task dropped the message: it logged "Failed to send message". -/
def dropped (events : List DeliveryEvent) : Bool :=
  events.any (fun e => match e with
    | DeliveryEvent.gaveUp _ => true
    | _ => false)

/-- The calls and sleeps of a trace, without the log lines. -/
def timeline (events : List DeliveryEvent) : List DeliveryEvent :=
  events.filter (fun e => match e with
    | DeliveryEvent.attempt _ => true
    | DeliveryEvent.sleep _ => true
    | _ => false)

/-- Specification of the retry schedule with `a` attempts: attempt 1, then before each
further attempt `i + 1` a sleep of `2^(i-1)` seconds; nothing after the last attempt. -/
def backoffSchedule (a : Nat) : List DeliveryEvent :=
  (List.range a).flatMap (fun i =>
    (if i = 0 then [] else [DeliveryEvent.sleep (2 ^ (i - 1) * second)]) ++
      [DeliveryEvent.attempt ((i : Int) + 1)])

/-! ## Go errors -/

/-- Go `error` values, as far as the sources create or inspect them. -/
inductive GoError where
  /-- The sentinel `redis.Nil`: the key does not exist. -/
  | redisNil
  /-- Any other error handed back by a library or collaborator (network, Redis, HTTP,
  JSON), passed along unchanged. -/
  | external (msg : String)
  /-- An error created in this repository with `fmt.Errorf`. -/
  | errorf (msg : String)
  deriving DecidableEq, Repr

/-- The text `err.Error()` of an error value. -/
def GoError.text : GoError → String
  | GoError.redisNil => "redis: nil"
  | GoError.external msg => msg
  | GoError.errorf msg => msg

/-! ## hackerone/hackerone.go: the worker pool of `GetAllUrlsProducer`

Goroutines are actors of a transition system; buffered channels are FIFO lists with a
capacity. A scheduler repeatedly picks one of the actors that can move. -/

deriving instance DecidableEq for Except

/-- Program counter of one worker goroutine (hackerone.go 156-171). -/
inductive Worker where
  /-- At `for handle := range jobs`, about to receive. -/
  | idle
  /-- Holding `handle`, about to call `api.GetProgramStructuredScope(handle)`. -/
  | fetching (handle : String)
  /-- The fetch of `handle` returned `res`; about to send on `errorsChan` or `results`. -/
  | sending (handle : String) (res : Except GoError (List String))
  /-- In `time.Sleep(1 * time.Second)` after a result was sent. -/
  | sleeping
  /-- The `range` loop ended and the deferred `wg.Done()` ran. -/
  | exited
  deriving DecidableEq, Repr

/-- Program counter of the calling goroutine (hackerone.go 174-182). -/
inductive MainPc where
  /-- In `for _, handle := range allhandles { jobs <- handle }` with `rest` still to send;
  with `rest = []` the next step is `close(jobs)`. -/
  | feeding (rest : List String)
  /-- Blocked in `wg.Wait()`. -/
  | waiting
  /-- After `wg.Wait()` returned and `results`, `errorsChan` were closed. -/
  | finished
  deriving DecidableEq, Repr

/-- State of the pool. `fetchLog` and `sentLog` are history variables: the handles
fetched so far, and the handles whose outcome was sent so far, both in order. -/
structure Pool where
  main : MainPc
  cap : Nat
  jobs : List String
  jobsClosed : Bool
  results : List (List String)
  errorsChan : List GoError
  workers : List Worker
  fetchLog : List String
  sentLog : List String
  deriving DecidableEq, Repr

/-- The goroutines of the pool. -/
inductive Actor where
  | main
  | worker (i : Nat)
  deriving DecidableEq, Repr

/-- The statements `numWorkers := 10; if len(allhandles) < numWorkers { numWorkers = len(allhandles) }`. -/
def numWorkers (n : Nat) : Nat := if n < 10 then n else 10

/-- State after the channels are made and the workers are started. -/
def initPool (allhandles : List String) : Pool :=
  { main := MainPc.feeding allhandles
    cap := allhandles.length
    jobs := []
    jobsClosed := false
    results := []
    errorsChan := []
    workers := List.replicate (numWorkers allhandles.length) Worker.idle
    fetchLog := []
    sentLog := [] }

/-- Can this worker move? A receive needs a queued job or a closed channel; a send needs
room in the buffer. -/
def workerEnabled (s : Pool) : Worker → Bool
  | Worker.idle => !s.jobs.isEmpty || s.jobsClosed
  | Worker.fetching _ => true
  | Worker.sending _ (.ok _) => s.results.length < s.cap
  | Worker.sending _ (.error _) => s.errorsChan.length < s.cap
  | Worker.sleeping => true
  | Worker.exited => false

/-- Can the calling goroutine move? A send needs room in `jobs`; `wg.Wait()` returns once
every worker has called `wg.Done()`. -/
def mainEnabled (s : Pool) : Bool :=
  match s.main with
  | MainPc.feeding (_ :: _) => s.jobs.length < s.cap
  | MainPc.feeding [] => true
  | MainPc.waiting => s.workers.all (fun w => w == Worker.exited)
  | MainPc.finished => false

/-- The actors that can move in `s`. -/
def enabled (s : Pool) : List Actor :=
  (if mainEnabled s then [Actor.main] else []) ++
    ((List.range s.workers.length).filter
      (fun i => workerEnabled s (s.workers.getD i Worker.exited))).map Actor.worker

/-- One step of worker `i`. -/
def stepWorker (fetch : String → Except GoError (List String)) (s : Pool) (i : Nat) : Pool :=
  match s.workers.getD i Worker.exited with
  | Worker.idle =>
    match s.jobs with
    | handle :: rest => { s with jobs := rest, workers := s.workers.set i (Worker.fetching handle) }
    | [] => { s with workers := s.workers.set i Worker.exited }
  | Worker.fetching handle =>
    { s with workers := s.workers.set i (Worker.sending handle (fetch handle))
             fetchLog := s.fetchLog ++ [handle] }
  | Worker.sending handle (.ok urls) =>
    { s with results := s.results ++ [urls]
             workers := s.workers.set i Worker.sleeping
             sentLog := s.sentLog ++ [handle] }
  | Worker.sending handle (.error e) =>
    { s with errorsChan := s.errorsChan ++
               [GoError.errorf ("error fetching scope for " ++ handle ++ ": " ++ e.text)]
             workers := s.workers.set i Worker.idle
             sentLog := s.sentLog ++ [handle] }
  | Worker.sleeping => { s with workers := s.workers.set i Worker.idle }
  | Worker.exited => s

/-- One step of the calling goroutine. -/
def stepMain (s : Pool) : Pool :=
  match s.main with
  | MainPc.feeding (handle :: rest) =>
    { s with jobs := s.jobs ++ [handle], main := MainPc.feeding rest }
  | MainPc.feeding [] => { s with jobsClosed := true, main := MainPc.waiting }
  | MainPc.waiting => { s with main := MainPc.finished }
  | MainPc.finished => s

/-- One step of an actor. -/
def step (fetch : String → Except GoError (List String)) (s : Pool) : Actor → Pool
  | Actor.main => stepMain s
  | Actor.worker i => stepWorker fetch s i

/-- Run the pool until no actor can move. At time `t` the scheduler moves the enabled
actor number `pick t` (modulo the number of enabled actors). -/
def runPool (fetch : String → Except GoError (List String)) (pick : Nat → Nat) :
    Nat → Nat → Pool → Except Halt Pool
  | 0, _, s => if (enabled s).isEmpty then .ok s else .error Halt.fuel
  | fuel + 1, t, s =>
    match enabled s with
    | [] => .ok s
    | a :: as => runPool fetch pick fuel (t + 1)
        (step fetch s ((a :: as).getD (pick t % (as.length + 1)) a))

/-- What a call of `GetAllUrlsProducer` yields: the returned pair `([]string, error)` and
the handles `GetProgramStructuredScope` was called with, in call order. -/
structure Collected where
  urls : List String
  err : Option GoError
  fetchCalls : List String
  deriving DecidableEq, Repr

/-- Method `GetAllUrlsProducer` (hackerone.go 136-195). `listing` is what
`api.GetAllProgramsHandles()` returns, `fetch` is `api.GetProgramStructuredScope`, `pick`
is the scheduler. The step budget is never exhausted (theorem `runPool_spec`). A pool
that stops before `wg.Wait()` returns is a deadlock, which the Go runtime reports as a
fatal error. -/
def GetAllUrlsProducer (listing : Except GoError (List String))
    (fetch : String → Except GoError (List String)) (pick : Nat → Nat) :
    Except Halt Collected :=
  match listing with
  | .error e => .ok { urls := [], err := some e, fetchCalls := [] }
  | .ok allhandles =>
    match runPool fetch pick (5 * allhandles.length + numWorkers allhandles.length + 2) 0
        (initPool allhandles) with
    | .error h => .error h
    | .ok s =>
      if s.main = MainPc.finished then
        if s.errorsChan.length > 0 then
          .ok { urls := [], fetchCalls := s.fetchLog
                err := some (GoError.errorf "encountered errors while fetching scopes") }
        else
          .ok { urls := s.results.flatten, err := none, fetchCalls := s.fetchLog }
      else
        .error (Halt.panic "all goroutines are asleep - deadlock!")

/-! ### Proof vocabulary for the pool -/

/-- The handle a worker has received and whose outcome it has not sent yet. -/
def held : Worker → List String
  | Worker.fetching handle => [handle]
  | Worker.sending handle _ => [handle]
  | _ => []

/-- The handle a worker has received and not fetched yet. -/
def heldUnfetched : Worker → List String
  | Worker.fetching handle => [handle]
  | _ => []

/-- The handles the calling goroutine has not queued yet. -/
def restOf : MainPc → List String
  | MainPc.feeding rest => rest
  | _ => []

/-- The item list of a successful fetch. -/
def okUrls (r : Except GoError (List String)) : Option (List String) :=
  match r with
  | .ok urls => some urls
  | .error _ => none

/-- The error a worker sends on `errorsChan` for a failed fetch of `handle`. -/
def sentError (handle : String) (r : Except GoError (List String)) : Option GoError :=
  match r with
  | .ok _ => none
  | .error e => some (GoError.errorf ("error fetching scope for " ++ handle ++ ": " ++ e.text))

/-- Steps a worker still takes at least, given its program counter. -/
def weight : Worker → Nat
  | Worker.idle => 1
  | Worker.fetching _ => 4
  | Worker.sending _ _ => 3
  | Worker.sleeping => 2
  | Worker.exited => 0

/-- Steps the calling goroutine still takes, counting 4 worker steps per unqueued job. -/
def mainWeight : MainPc → Nat
  | MainPc.feeding rest => 5 * rest.length + 2
  | MainPc.waiting => 1
  | MainPc.finished => 0

/-- Termination measure of the pool: every step of an enabled actor lowers it. -/
def poolMeasure (s : Pool) : Nat :=
  mainWeight s.main + 4 * s.jobs.length + (s.workers.map weight).sum

/-- Invariant of the pool started on `handles`. -/
structure PoolInv (fetch : String → Except GoError (List String)) (handles : List String)
    (s : Pool) : Prop where
  cap_eq : s.cap = handles.length
  sent_perm : ((s.sentLog : Multiset String) + (s.workers.flatMap held : Multiset String) +
    (s.jobs : Multiset String) + (restOf s.main : Multiset String)) = (handles : Multiset String)
  fetch_perm : ((s.fetchLog : Multiset String) +
    (s.workers.flatMap heldUnfetched : Multiset String) +
    (s.jobs : Multiset String) + (restOf s.main : Multiset String)) = (handles : Multiset String)
  results_eq : s.results = s.sentLog.filterMap (fun h => okUrls (fetch h))
  errors_eq : s.errorsChan = s.sentLog.filterMap (fun h => sentError h (fetch h))
  sending_eq : ∀ h r, Worker.sending h r ∈ s.workers → r = fetch h
  closed_iff : s.jobsClosed = true ↔ restOf s.main = [] ∧ s.main ≠ MainPc.feeding []
  finished_exited : s.main = MainPc.finished → ∀ w ∈ s.workers, w = Worker.exited
  exited_drained : Worker.exited ∈ s.workers → s.jobs = [] ∧ s.jobsClosed = true
  workers_len : s.workers.length = numWorkers handles.length

/-- The items a fetch contributes: its list when it succeeds, nothing when it fails. -/
def itemsOf (r : Except GoError (List String)) : List String :=
  match r with
  | .ok urls => urls
  | .error _ => []

/-! ## encoding/json, for `[]string` -/

/-- Lower-case hexadecimal digit of `n < 16`. -/
def hexDigit (n : Nat) : Char :=
  if n < 10 then Char.ofNat (48 + n) else Char.ofNat (87 + n)

/-- The four hexadecimal digits of `n < 65536`, as written after `\\u`. -/
def hex4 (n : Nat) : List Char :=
  [hexDigit (n / 4096 % 16), hexDigit (n / 256 % 16), hexDigit (n / 16 % 16), hexDigit (n % 16)]

/-- How `json.Marshal` writes one character of a string: the two-character escapes for
quote, backslash, newline, carriage return and tab; `\\u00XX` for the other control
characters; `\\u003c`, `\\u003e`, `\\u0026`, `\\u2028`, `\\u2029` for `<`, `>`, `&` and the two line
separators (HTML-safe escaping is on in `json.Marshal`); the character itself otherwise.
(From Go 1.22 on U+0008 and U+000C are written `\\b` and `\\f`; `decodeBody` reads both
forms.) -/
def escapeChar (c : Char) : List Char :=
  if c = '"' then ['\\', '"']
  else if c = '\\' then ['\\', '\\']
  else if c = '\n' then ['\\', 'n']
  else if c = '\r' then ['\\', 'r']
  else if c = '\t' then ['\\', 't']
  else if c.toNat < 32 ∨ c = '<' ∨ c = '>' ∨ c = '&' ∨ c.toNat = 8232 ∨ c.toNat = 8233 then
    '\\' :: 'u' :: hex4 c.toNat
  else [c]

/-- Value of a hexadecimal digit, in either case. -/
def hexVal (c : Char) : Option Nat :=
  if 48 ≤ c.toNat ∧ c.toNat ≤ 57 then some (c.toNat - 48)
  else if 97 ≤ c.toNat ∧ c.toNat ≤ 102 then some (c.toNat - 87)
  else if 65 ≤ c.toNat ∧ c.toNat ≤ 70 then some (c.toNat - 55)
  else none

/-- Value of four hexadecimal digits. -/
def hexVal4 (a b c d : Char) : Option Nat :=
  match hexVal a, hexVal b, hexVal c, hexVal d with
  | some x, some y, some z, some w => some (x * 4096 + y * 256 + z * 16 + w)
  | _, _, _, _ => none

/-- The character a two-character escape `\\e` stands for. -/
def simpleEscape (e : Char) : Option Char :=
  if e = '"' then some '"'
  else if e = '\\' then some '\\'
  else if e = '/' then some '/'
  else if e = 'b' then some (Char.ofNat 8)
  else if e = 'f' then some (Char.ofNat 12)
  else if e = 'n' then some '\n'
  else if e = 'r' then some '\r'
  else if e = 't' then some '\t'
  else none

/-- Reads a `\\uXXXX` escape holding a low surrogate, the second half of a pair. -/
def lowSurrogate : List Char → Option (Nat × List Char)
  | '\\' :: 'u' :: a :: b :: c :: d :: rest =>
    match hexVal4 a b c d with
    | some w => if 56320 ≤ w ∧ w < 57344 then some (w, rest) else none
    | none => none
  | _ => none

/-- Reads a JSON string literal after its opening quote: the decoded characters and the
input after the closing quote. A surrogate pair is one character, a lone surrogate is
U+FFFD, a raw control character or an unknown escape is an error. The budget is the
number of characters that may be read. -/
def decodeBody : Nat → List Char → Option (List Char × List Char)
  | 0, _ => none
  | _ + 1, [] => none
  | fuel + 1, c :: rest =>
    if c = '"' then some ([], rest)
    else if c = '\\' then
      match rest with
      | [] => none
      | e :: rest1 =>
        if e = 'u' then
          match rest1 with
          | a :: b :: c :: d :: rest2 =>
            match hexVal4 a b c d with
            | none => none
            | some v =>
              if 55296 ≤ v ∧ v < 57344 then
                match (if v < 56320 then lowSurrogate rest2 else none) with
                | some (w, rest3) =>
                  (decodeBody fuel rest3).map
                    (fun p => (Char.ofNat (65536 + (v - 55296) * 1024 + (w - 56320)) :: p.1, p.2))
                | none => (decodeBody fuel rest2).map (fun p => (Char.ofNat 65533 :: p.1, p.2))
              else
                (decodeBody fuel rest2).map (fun p => (Char.ofNat v :: p.1, p.2))
          | _ => none
        else
          match simpleEscape e with
          | none => none
          | some ch => (decodeBody fuel rest1).map (fun p => (ch :: p.1, p.2))
    else if c.toNat < 32 then none
    else (decodeBody fuel rest).map (fun p => (c :: p.1, p.2))


/-- JSON insignificant whitespace. -/
def isSpace (c : Char) : Bool := c = ' ' || c = '\t' || c = '\n' || c = '\r'

/-- Drops leading whitespace. -/
def skipSpace : List Char → List Char
  | [] => []
  | c :: rest => if isSpace c then skipSpace rest else c :: rest

/-- A string as a JSON string literal. -/
def encodeString (s : String) : List Char := '"' :: (s.data.flatMap escapeChar ++ ['"'])

/-- The elements of a JSON array of strings, comma-separated. -/
def encodeElems : List String → List Char
  | [] => []
  | [s] => encodeString s
  | s :: t :: ts => encodeString s ++ ',' :: encodeElems (t :: ts)

/-- The call `json.Marshal(urls)` for `urls []string`: `null` for a nil slice (`isNil`
tells whether an empty `urls` is the nil slice), a JSON array of string literals
otherwise. It cannot fail on a `[]string`. -/
def jsonMarshal (isNil : Bool) (l : List String) : String :=
  if l.isEmpty && isNil then "null" else String.mk ('[' :: (encodeElems l ++ [']']))

/-- What follows an array element `s`: after optional whitespace either a comma and the
further elements, read by `more`, or the closing bracket, after which only whitespace may
follow. -/
def afterElem (s : String) (rest : List Char) (more : List Char → Option (List String)) :
    Option (List String) :=
  match skipSpace rest with
  | [] => none
  | d :: rest1 =>
    if d = ',' then (more rest1).map (fun l => s :: l)
    else if d = ']' then (if (skipSpace rest1).isEmpty then some [s] else none)
    else none

/-- Reads the elements of a non-empty JSON array up to the closing bracket, into a
`[]string`: a string literal gives its text; the literal `null` leaves the element at its
zero value, the empty string; an element of any other kind (number, boolean, object,
array) makes `json.Unmarshal` return an error, as does malformed input. The budget is the
number of elements that may be read. -/
def decodeElems : Nat → List Char → Option (List String)
  | 0, _ => none
  | fuel + 1, cs =>
    match skipSpace cs with
    | [] => none
    | c :: body =>
      if c = '"' then
        match decodeBody body.length body with
        | none => none
        | some (s, rest) => afterElem (String.mk s) rest (fun r => decodeElems fuel r)
      else
        match c :: body with
        | 'n' :: 'u' :: 'l' :: 'l' :: rest => afterElem "" rest (fun r => decodeElems fuel r)
        | _ => none

/-- The call `json.Unmarshal(data, &urls)` for `urls []string`: `null` leaves the slice
nil; an array of string literals and `null`s is decoded element by element; every other
input (malformed JSON, a value that is not an array, an array with an element that is
neither a string nor `null`) is reported as an error. The text of that error is not
modelled. -/
def jsonUnmarshal (data : String) : Except GoError (List String) :=
  match skipSpace data.data with
  | 'n' :: 'u' :: 'l' :: 'l' :: rest =>
    if (skipSpace rest).isEmpty then .ok [] else .error (GoError.external "json: invalid input")
  | '[' :: rest =>
    match skipSpace rest with
    | ']' :: rest1 =>
      if (skipSpace rest1).isEmpty then .ok [] else .error (GoError.external "json: invalid input")
    | _ =>
      match decodeElems data.length rest with
      | some l => .ok l
      | none => .error (GoError.external "json: invalid input")
  | _ => .error (GoError.external "json: invalid input")

/-! ## The Redis server, as seen through the client -/

/-- A stored string with the retention passed to `SET` (a `time.Duration`). Expiry is not
modelled: a stored value stays until it is overwritten. -/
structure Entry where
  value : String
  ttl : Int
  deriving DecidableEq, Repr

/-- The server: the key-value store and the messages published so far, with their
channels, oldest first. -/
structure Redis where
  kv : List (String × Entry)
  published : List (String × String)
  deriving DecidableEq, Repr

/-- A server holding nothing. -/
def emptyRedis : Redis := { kv := [], published := [] }

/-- The call `rdb.Get(ctx, key).Result()`. `fault` is the transport failure of this round trip, if
any; a missing key is reported as `redis.Nil`. -/
def rdbGet (db : Redis) (fault : Option String) (key : String) : Except GoError String :=
  match fault with
  | some msg => .error (GoError.external msg)
  | none =>
    match db.kv.lookup key with
    | some e => .ok e.value
    | none => .error GoError.redisNil

/-- The call `rdb.Set(ctx, key, value, ttl).Err()`: one `SET`, replacing any value of `key`. -/
def rdbSet (db : Redis) (fault : Option String) (key value : String) (ttl : Int) :
    Redis × Option GoError :=
  match fault with
  | some msg => (db, some (GoError.external msg))
  | none =>
    ({ db with kv := (key, { value := value, ttl := ttl }) :: db.kv.filter (fun p => p.1 != key) },
      none)

/-- The call `rdb.Publish(ctx, channel, message).Err()`. -/
def rdbPublish (db : Redis) (fault : Option String) (channel message : String) :
    Redis × Option GoError :=
  match fault with
  | some msg => (db, some (GoError.external msg))
  | none => ({ db with published := db.published ++ [(channel, message)] }, none)

/-- The retention `7*24*time.Hour`, in nanoseconds. -/
def week : Int := 604800000000000

/-- Function `GetPreviousURLs` (redis.go 32-47). -/
def GetPreviousURLs (db : Redis) (fault : Option String) : Except GoError (List String) :=
  match rdbGet db fault "hackerone:previous_urls" with
  | .error GoError.redisNil => .error (GoError.errorf "no previous URLs found")
  | .error e => .error e
  | .ok data =>
    match jsonUnmarshal data with
    | .error e => .error (GoError.errorf ("error unmarshaling URLs from Redis: " ++ e.text))
    | .ok urls => .ok urls

/-- Function `SaveURLsToRedis` (redis.go 50-62): the server afterwards and the returned error.
`isNil` tells whether an empty `urls` is the nil slice. The branch for a failing
`json.Marshal` is unreachable for a `[]string`. -/
def SaveURLsToRedis (key : String) (db : Redis) (fault : Option String) (urls : List String)
    (isNil : Bool) : Redis × Option GoError :=
  match rdbSet db fault key (jsonMarshal isNil urls) week with
  | (db1, some e) => (db1, some (GoError.errorf ("error saving to Redis: " ++ e.text)))
  | (db1, none) => (db1, none)

/-! ## Orchestration cycles -/

/-- The observable actions of one orchestration cycle. -/
inductive Effect where
  /-- The call of the collector. -/
  | collect
  /-- A `GET` of the snapshot key. -/
  | load (key : String)
  /-- The comparison of the baseline with the current set. -/
  | diff (previous current : List String)
  /-- A `PUBLISH` on a channel. -/
  | publish (channel message : String)
  /-- A `SET` of the snapshot key. -/
  | save (key payload : String) (ttl : Int)
  /-- A `time.Sleep`, in nanoseconds. -/
  | sleep (d : Int)
  deriving DecidableEq, Repr

/-- The text `fmt.Sprintf("%v", l)` for a `[]string`: the items in brackets, separated by blanks. -/
def showSlice (l : List String) : String := "[" ++ " ".intercalate l ++ "]"

/-- One pass through the body of the `for` loop of `main` in hackerone.go (236-328): the
actions taken and the server afterwards. `collected` is what `GetAllUrlsProducer`
returned; `getFault`, `pubFault 0`, `pubFault 1` and `setFault` are the transport failures
of the `GET`, the two possible `PUBLISH`es and the `SET`; `oc`, `op` are the iteration
orders inside `CompareUniqueURLs`. The two `continue` statements skip the final
`time.Sleep`. -/
def hackeroneCycle (oc op : RangeOrder) (collected : Collected) (getFault : Option String)
    (pubFault : Nat → Option String) (setFault : Option String) (db : Redis) :
    List Effect × Redis :=
  match collected.err with
  | some _ => ([Effect.collect], db)
  | none =>
    let currentUnique := GetUniqueURLs collected.urls
    match GetPreviousURLs db getFault with
    | .error _ =>
      let saved := SaveURLsToRedis "hackerone:previous_urls" db setFault currentUnique true
      ([Effect.collect, Effect.load "hackerone:previous_urls",
        Effect.save "hackerone:previous_urls" (jsonMarshal true currentUnique) week], saved.1)
    | .ok previousUnique =>
      let changes := CompareUniqueURLs oc op previousUnique currentUnique
      let added := changes.1
      let removed := changes.2
      let addedMsg := "Added: " ++ showSlice added
      let removedMsg := "Removed: " ++ showSlice removed
      let db1 := if added.length > 0 then
        (rdbPublish db (pubFault 0) "telegram_notifications" addedMsg).1 else db
      let db2 := if removed.length > 0 then
        (rdbPublish db1 (pubFault 1) "telegram_notifications" removedMsg).1 else db1
      let saved := SaveURLsToRedis "hackerone:previous_urls" db2 setFault currentUnique true
      ([Effect.collect, Effect.load "hackerone:previous_urls",
          Effect.diff previousUnique currentUnique] ++
        (if added.length > 0 then [Effect.publish "telegram_notifications" addedMsg] else []) ++
        (if removed.length > 0 then [Effect.publish "telegram_notifications" removedMsg]
          else []) ++
        [Effect.save "hackerone:previous_urls" (jsonMarshal true currentUnique) week,
          Effect.sleep (300 * second)], saved.1)

/-- The publications of `sendInChunks` on the server: the `i`-th chunk message is the
`(first + i)`-th `PUBLISH` of the cycle. -/
def publishChunks (pubFault : Nat → Option String) :
    Nat → List ChunkSend → Redis → Redis
  | _, [], db => db
  | first, c :: cs, db =>
    publishChunks pubFault (first + 1) cs
      (rdbPublish db (pubFault first) "telegram_notifications" c.message).1

/-- The actions of `sendInChunks`: each chunk is published and followed by a sleep of
3100 ms. -/
def chunkEffects (sent : List ChunkSend) : List Effect :=
  sent.flatMap (fun c =>
    [Effect.publish "telegram_notifications" c.message, Effect.sleep 3100000000])

/-- The summary message of `compareAndSave`:
`Sprintf("Subdomain Changes Detected\nAdded: %d | Removed: %d", len(added), len(removed))`. -/
def changeSummary (added removed : Nat) : String :=
  "Subdomain Changes Detected\nAdded: " ++ toString added ++ " | Removed: " ++ toString removed

/-- Function `compareAndSave` (subfinder.go 139-214): the actions taken and the server afterwards.
`current` is a non-nil slice. `leftover data` is what a failing `json.Unmarshal` leaves in
`previous` (its error is not looked at); `getFault`, `pubFault` and `setFault` are the
transport failures of the `GET`, of the `PUBLISH`es in order, and of the `SET`. The call
of `sendInChunks` for the removed items is commented out in the source. -/
def compareAndSave (oc op : RangeOrder) (leftover : String → List String)
    (getFault : Option String) (pubFault : Nat → Option String) (setFault : Option String)
    (db : Redis) (current : List String) : Except Halt (List Effect × Redis) :=
  let previous : List String :=
    match rdbGet db getFault "anubis:previous_subdomains" with
    | .ok previousData =>
      match jsonUnmarshal previousData with
      | .ok decoded => decoded
      | .error _ => leftover previousData
    | .error _ => []
  let currentSet := buildSet current
  let previousSet := buildSet previous
  let added := (oc.visit (mapKeys currentSet)).foldl
    (fun added sub => if !mapGet previousSet sub then added ++ [sub] else added) []
  let removed := (op.visit (mapKeys previousSet)).foldl
    (fun removed sub => if !mapGet currentSet sub then removed ++ [sub] else removed) []
  let summary := changeSummary added.length removed.length
  let currentData := jsonMarshal false current
  let start := [Effect.load "anubis:previous_subdomains", Effect.diff previous current]
  let finish := fun (effects : List Effect) (db1 : Redis) =>
    (effects ++ [Effect.save "anubis:previous_subdomains" currentData week],
      (rdbSet db1 setFault "anubis:previous_subdomains" currentData week).1)
  if added.length > 0 ∨ removed.length > 0 then
    let db1 := (rdbPublish db (pubFault 0) "telegram_notifications" summary).1
    let announced := start ++ [Effect.publish "telegram_notifications" summary]
    if added.length > 0 then
      match sendInChunks added "🆕 Added Subdomains" 30 with
      | .error h => .error h
      | .ok sent => .ok (finish (announced ++ chunkEffects sent) (publishChunks pubFault 1 sent db1))
    else
      .ok (finish announced db1)
  else
    .ok (finish start db)

/-- What one pass of the `for` loop of hackerone `main` meets: the value returned by the
collector, the transport failures of the Redis commands, and the iteration orders inside
`CompareUniqueURLs`. -/
structure CycleInput where
  oc : RangeOrder
  op : RangeOrder
  collected : Collected
  getFault : Option String
  pubFault : Nat → Option String
  setFault : Option String

/-- The first passes of the loop `for { ... }` of hackerone `main` (hackerone.go 236-328),
one per element of `inputs`: the actions of the passes in order, and the server
afterwards. Nothing happens between two passes: the ticker made before the loop
(`time.NewTicker(5 * time.Minute)`) is never read, so the only wait is the `time.Sleep` at
the end of the loop body. -/
def hackeroneLoop : List CycleInput → Redis → List Effect × Redis
  | [], db => ([], db)
  | c :: cs, db =>
    let pass := hackeroneCycle c.oc c.op c.collected c.getFault c.pubFault c.setFault db
    let later := hackeroneLoop cs pass.2
    (pass.1 ++ later.1, later.2)

/-! ## Lemmas on maps and loops -/

theorem mapGet_of_not_mem (m : GoMap) (k : String) (h : k ∉ mapKeys m) :
    mapGet m k = false := by
  induction m with
  | nil => rfl
  | cons p m ih =>
    obtain ⟨a, b⟩ := p
    simp only [mapKeys, List.map_cons, List.mem_cons, not_or] at h
    have hne : (k == a) = false := by simpa using h.1
    simp only [mapGet, List.lookup, hne]
    exact ih h.2

theorem mapGet_of_mem (m : GoMap) (hm : AllTrue m) (k : String) (h : k ∈ mapKeys m) :
    mapGet m k = true := by
  induction m with
  | nil => simp [mapKeys] at h
  | cons p m ih =>
    obtain ⟨a, b⟩ := p
    have hb : b = true := hm (a, b) (List.mem_cons_self _ _)
    by_cases hka : k = a
    · subst hka
      simp [mapGet, List.lookup, hb]
    · have hne : (k == a) = false := by simpa using hka
      simp only [mapGet, List.lookup, hne]
      apply ih (fun p hp => hm p (List.mem_cons_of_mem _ hp))
      simpa [mapKeys, hka] using h

theorem mapGet_eq_true_iff (m : GoMap) (hm : AllTrue m) (k : String) :
    mapGet m k = true ↔ k ∈ mapKeys m := by
  constructor
  · intro h
    by_contra hk
    rw [mapGet_of_not_mem m k hk] at h
    exact Bool.false_ne_true h
  · exact mapGet_of_mem m hm k

theorem any_key_iff (m : GoMap) (k : String) :
    m.any (fun p => p.1 == k) = true ↔ k ∈ mapKeys m := by
  simp only [List.any_eq_true, beq_iff_eq, mapKeys, List.mem_map]

theorem mapKeys_mapSet (m : GoMap) (k : String) (v : Bool) :
    mapKeys (mapSet m k v) = if k ∈ mapKeys m then mapKeys m else mapKeys m ++ [k] := by
  unfold mapSet
  by_cases h : k ∈ mapKeys m
  · rw [if_pos ((any_key_iff m k).2 h), if_pos h]
    simp only [mapKeys, List.map_map]
    apply List.map_congr_left
    intro p _
    by_cases hp : p.1 = k
    · simp [hp]
    · simp [hp]
  · have h2 : ¬ (m.any (fun p => p.1 == k) = true) := fun h3 => h ((any_key_iff m k).1 h3)
    rw [if_neg h2, if_neg h]
    simp [mapKeys]

theorem allTrue_mapSet (m : GoMap) (hm : AllTrue m) (k : String) :
    AllTrue (mapSet m k true) := by
  unfold mapSet
  split
  · intro p hp
    simp only [List.mem_map] at hp
    obtain ⟨q, hq, rfl⟩ := hp
    by_cases h : q.1 = k
    · simp [h]
    · simpa [h] using hm q hq
  · intro p hp
    simp only [List.mem_append, List.mem_singleton] at hp
    rcases hp with hp | rfl
    · exact hm p hp
    · rfl

/-- State of the `buildSet` loop started from any map that stores only `true`. -/
theorem foldl_mapSet_spec (xs : List String) (m : GoMap) (hm : AllTrue m)
    (hn : (mapKeys m).Nodup) :
    AllTrue (xs.foldl (fun m url => mapSet m url true) m) ∧
    (mapKeys (xs.foldl (fun m url => mapSet m url true) m)).Nodup ∧
    ∀ k, k ∈ mapKeys (xs.foldl (fun m url => mapSet m url true) m) ↔ k ∈ mapKeys m ∨ k ∈ xs := by
  induction xs generalizing m with
  | nil => simp [hm, hn]
  | cons x xs ih =>
    have hn2 : (mapKeys (mapSet m x true)).Nodup := by
      rw [mapKeys_mapSet]
      split
      · exact hn
      · rename_i hx
        exact List.Nodup.append hn (List.nodup_singleton x) (by simpa using hx)
    obtain ⟨h1, h2, h3⟩ := ih (mapSet m x true) (allTrue_mapSet m hm x) hn2
    refine ⟨h1, h2, fun k => ?_⟩
    rw [List.foldl_cons, h3 k, mapKeys_mapSet]
    by_cases hx : x ∈ mapKeys m
    · rw [if_pos hx]
      simp only [List.mem_cons]
      constructor
      · rintro (h | h)
        · exact Or.inl h
        · exact Or.inr (Or.inr h)
      · rintro (h | h | h)
        · exact Or.inl h
        · exact Or.inl (h ▸ hx)
        · exact Or.inr h
    · rw [if_neg hx]
      simp only [List.mem_append, List.mem_singleton, List.mem_cons]
      tauto

theorem buildSet_allTrue (xs : List String) : AllTrue (buildSet xs) :=
  (foldl_mapSet_spec xs [] (fun _ h => by simp at h) (by simp [mapKeys])).1

theorem buildSet_nodup (xs : List String) : (mapKeys (buildSet xs)).Nodup :=
  (foldl_mapSet_spec xs [] (fun _ h => by simp at h) (by simp [mapKeys])).2.1

theorem mem_buildSet (xs : List String) (k : String) : k ∈ mapKeys (buildSet xs) ↔ k ∈ xs := by
  have h := (foldl_mapSet_spec xs [] (fun _ h => by simp at h) (by simp [mapKeys])).2.2 k
  simpa [mapKeys] using h

theorem mapGet_buildSet (xs : List String) (k : String) :
    mapGet (buildSet xs) k = true ↔ k ∈ xs := by
  rw [mapGet_eq_true_iff _ (buildSet_allTrue xs), mem_buildSet]

/-- A loop that appends the items passing a test computes a filter. -/
theorem foldl_append_if (p : String → Bool) (xs acc : List String) :
    xs.foldl (fun acc x => if p x then acc ++ [x] else acc) acc = acc ++ xs.filter p := by
  induction xs generalizing acc with
  | nil => simp
  | cons x xs ih =>
    rw [List.foldl_cons, ih]
    by_cases h : p x = true
    · simp [h]
    · simp [h]

theorem getUniqueURLs_eq (urls : List String) :
    GetUniqueURLs urls = (urls.foldl uniqueStep (([] : GoMap), ([] : List String))).2 := rfl

/-- Loop invariant of `GetUniqueURLs`: the key list of `uniqueMap` is the slice `unique`. -/
theorem uniqueStep_foldl_inv (l : List String) (st : GoMap × List String)
    (hk : mapKeys st.1 = st.2) (ht : AllTrue st.1) (hn : st.2.Nodup) :
    mapKeys (l.foldl uniqueStep st).1 = (l.foldl uniqueStep st).2 ∧
    AllTrue (l.foldl uniqueStep st).1 ∧ (l.foldl uniqueStep st).2.Nodup ∧
    ∀ k, k ∈ (l.foldl uniqueStep st).2 ↔ k ∈ st.2 ∨ k ∈ l := by
  induction l generalizing st with
  | nil => simp [hk, ht, hn]
  | cons x l ih =>
    rw [List.foldl_cons]
    by_cases hx : x ∈ st.2
    · have hg : mapGet st.1 x = true := (mapGet_eq_true_iff _ ht x).2 (hk ▸ hx)
      have hs : uniqueStep st x = st := by simp [uniqueStep, hg]
      rw [hs]
      obtain ⟨h1, h2, h3, h4⟩ := ih st hk ht hn
      refine ⟨h1, h2, h3, fun k => ?_⟩
      rw [h4 k, List.mem_cons]
      constructor
      · rintro (h | h)
        · exact Or.inl h
        · exact Or.inr (Or.inr h)
      · rintro (h | h | h)
        · exact Or.inl h
        · exact Or.inl (h ▸ hx)
        · exact Or.inr h
    · have hxm : x ∉ mapKeys st.1 := hk ▸ hx
      have hg : mapGet st.1 x = false := mapGet_of_not_mem _ _ hxm
      have hs : uniqueStep st x = (mapSet st.1 x true, st.2 ++ [x]) := by
        simp [uniqueStep, hg]
      rw [hs]
      have hk2 : mapKeys (mapSet st.1 x true) = st.2 ++ [x] := by
        rw [mapKeys_mapSet, if_neg hxm, hk]
      have hn2 : (st.2 ++ [x]).Nodup :=
        List.Nodup.append hn (List.nodup_singleton x) (by simpa using hx)
      obtain ⟨h1, h2, h3, h4⟩ :=
        ih (mapSet st.1 x true, st.2 ++ [x]) hk2 (allTrue_mapSet _ ht x) hn2
      refine ⟨h1, h2, h3, fun k => ?_⟩
      rw [h4 k]
      simp only [List.mem_append, List.mem_singleton, List.mem_cons]
      tauto

/-- The loop of `GetUniqueURLs`, resumed after a prefix `pre` whose items are exactly the
ones recorded so far, appends the first occurrences found in the rest of the input. -/
theorem uniqueStep_foldl_first (l pre : List String) (st : GoMap × List String)
    (hk : mapKeys st.1 = st.2) (ht : AllTrue st.1) (hp : ∀ k, k ∈ st.2 ↔ k ∈ pre) :
    (l.foldl uniqueStep st).2 = st.2 ++
      ((l.enumFrom pre.length).filter (fun p => decide (p.2 ∉ (pre ++ l).take p.1))).map
        Prod.snd := by
  induction l generalizing st pre with
  | nil => simp
  | cons x l ih =>
    rw [List.foldl_cons, List.enumFrom_cons]
    have htake : (pre ++ x :: l).take pre.length = pre := by simp
    have happ : pre ++ x :: l = (pre ++ [x]) ++ l := by simp
    have hlen : pre.length + 1 = (pre ++ [x]).length := by simp
    by_cases hx : x ∈ st.2
    · have hg : mapGet st.1 x = true := (mapGet_eq_true_iff _ ht x).2 (hk ▸ hx)
      have hs : uniqueStep st x = st := by simp [uniqueStep, hg]
      have hxp : x ∈ pre := (hp x).1 hx
      rw [hs, List.filter_cons_of_neg (by simpa [htake] using hxp), happ, hlen]
      apply ih (pre ++ [x]) st hk ht
      intro k
      rw [hp k, List.mem_append, List.mem_singleton]
      constructor
      · exact Or.inl
      · rintro (h | h)
        · exact h
        · exact h ▸ hxp
    · have hxm : x ∉ mapKeys st.1 := hk ▸ hx
      have hg : mapGet st.1 x = false := mapGet_of_not_mem _ _ hxm
      have hs : uniqueStep st x = (mapSet st.1 x true, st.2 ++ [x]) := by
        simp [uniqueStep, hg]
      have hxp : x ∉ pre := fun h => hx ((hp x).2 h)
      have hk2 : mapKeys (mapSet st.1 x true) = st.2 ++ [x] := by
        rw [mapKeys_mapSet, if_neg hxm, hk]
      rw [hs, List.filter_cons_of_pos (by simpa [htake] using hxp), happ, hlen,
        ih (pre ++ [x]) (mapSet st.1 x true, st.2 ++ [x]) hk2 (allTrue_mapSet _ ht x)]
      · simp
      · intro k
        simp only [List.mem_append, List.mem_singleton]
        rw [hp k]

theorem getUniqueURLs_eq_firstOccurrences (S : List String) :
    GetUniqueURLs S = firstOccurrences S := by
  have h := uniqueStep_foldl_first S [] (([] : GoMap), ([] : List String)) rfl
    (fun _ h => by simp at h) (fun k => by simp)
  simpa [getUniqueURLs_eq, firstOccurrences, List.enum] using h

theorem getUniqueURLs_nodup (S : List String) : (GetUniqueURLs S).Nodup :=
  (uniqueStep_foldl_inv S (([] : GoMap), ([] : List String)) rfl
    (fun _ h => by simp at h) List.nodup_nil).2.2.1

theorem mem_getUniqueURLs (S : List String) (k : String) : k ∈ GetUniqueURLs S ↔ k ∈ S := by
  have h := (uniqueStep_foldl_inv S (([] : GoMap), ([] : List String)) rfl
    (fun _ h => by simp at h) List.nodup_nil).2.2.2 k
  simpa [getUniqueURLs_eq] using h

theorem firstOccurrences_sublist (S : List String) : (firstOccurrences S).Sublist S := by
  have h : ((S.enum.filter (fun p => decide (p.2 ∉ S.take p.1))).map Prod.snd).Sublist
      (S.enum.map Prod.snd) := List.Sublist.map _ (List.filter_sublist _)
  rwa [List.enum_map_snd] at h

theorem compare_added_eq (oc op : RangeOrder) (previous current : List String) :
    (CompareUniqueURLs oc op previous current).1 =
      (oc.visit (mapKeys (buildSet current))).filter
        (fun url => !mapGet (buildSet previous) url) := by
  simp only [CompareUniqueURLs]
  rw [foldl_append_if (fun url => !mapGet (buildSet previous) url)]
  simp

theorem compare_removed_eq (oc op : RangeOrder) (previous current : List String) :
    (CompareUniqueURLs oc op previous current).2 =
      (op.visit (mapKeys (buildSet previous))).filter
        (fun url => !mapGet (buildSet current) url) := by
  simp only [CompareUniqueURLs]
  rw [foldl_append_if (fun url => !mapGet (buildSet current) url)]
  simp

theorem mem_added_iff (oc op : RangeOrder) (previous current : List String) (x : String) :
    x ∈ (CompareUniqueURLs oc op previous current).1 ↔ x ∈ current ∧ x ∉ previous := by
  rw [compare_added_eq, List.mem_filter, (oc.perm _).mem_iff, mem_buildSet]
  have h := mapGet_buildSet previous x
  constructor
  · rintro ⟨h1, h2⟩
    refine ⟨h1, fun hp => ?_⟩
    rw [h.2 hp] at h2
    simp at h2
  · rintro ⟨h1, h2⟩
    refine ⟨h1, ?_⟩
    cases hg : mapGet (buildSet previous) x
    · rfl
    · exact absurd (h.1 hg) h2

theorem mem_removed_iff (oc op : RangeOrder) (previous current : List String) (x : String) :
    x ∈ (CompareUniqueURLs oc op previous current).2 ↔ x ∈ previous ∧ x ∉ current := by
  rw [compare_removed_eq, List.mem_filter, (op.perm _).mem_iff, mem_buildSet]
  have h := mapGet_buildSet current x
  constructor
  · rintro ⟨h1, h2⟩
    refine ⟨h1, fun hp => ?_⟩
    rw [h.2 hp] at h2
    simp at h2
  · rintro ⟨h1, h2⟩
    refine ⟨h1, ?_⟩
    cases hg : mapGet (buildSet current) x
    · rfl
    · exact absurd (h.1 hg) h2

theorem added_nodup (oc op : RangeOrder) (previous current : List String) :
    (CompareUniqueURLs oc op previous current).1.Nodup := by
  rw [compare_added_eq]
  exact List.Nodup.filter _ ((oc.perm _).nodup_iff.2 (buildSet_nodup current))

theorem removed_nodup (oc op : RangeOrder) (previous current : List String) :
    (CompareUniqueURLs oc op previous current).2.Nodup := by
  rw [compare_removed_eq]
  exact List.Nodup.filter _ ((op.perm _).nodup_iff.2 (buildSet_nodup previous))

/-- A duplicate-free list whose only possible member is `a`, and which has `a`, is `[a]`. -/
theorem eq_singleton_of_nodup (l : List String) (a : String) (hn : l.Nodup)
    (hm : ∀ x, x ∈ l ↔ x = a) : l = [a] := by
  have hp : l.Perm [a] :=
    (List.perm_ext_iff_of_nodup hn (List.nodup_singleton a)).2 (fun x => by simp [hm x])
  exact List.perm_singleton.1 hp

/-! ## Claims on `redismethods` -/

/-- C1: for all item lists `previous` and `current` and every iteration order of the two
map loops, an item occurs in `added` iff it occurs in `current` and not in `previous`, an
item occurs in `removed` iff it occurs in `previous` and not in `current`, and neither
output repeats an item; and for `previous = ["a.com","b.com"]`,
`current = GetUniqueURLs ["b.com","b.com","c.com"]` the result is
`added = ["c.com"]`, `removed = ["a.com"]`. -/
theorem C1_compareUniqueURLs_sets :
    (∀ (oc op : RangeOrder) (previous current : List String),
      (∀ x, x ∈ (CompareUniqueURLs oc op previous current).1 ↔
        x ∈ current ∧ x ∉ previous) ∧
      (∀ x, x ∈ (CompareUniqueURLs oc op previous current).2 ↔
        x ∈ previous ∧ x ∉ current) ∧
      (CompareUniqueURLs oc op previous current).1.Nodup ∧
      (CompareUniqueURLs oc op previous current).2.Nodup) ∧
    (∀ (oc op : RangeOrder),
      CompareUniqueURLs oc op ["a.com", "b.com"] (GetUniqueURLs ["b.com", "b.com", "c.com"])
        = (["c.com"], ["a.com"])) := by
  refine ⟨fun oc op previous current =>
    ⟨mem_added_iff oc op previous current, mem_removed_iff oc op previous current,
      added_nodup oc op previous current, removed_nodup oc op previous current⟩, ?_⟩
  intro oc op
  have hu : GetUniqueURLs ["b.com", "b.com", "c.com"] = ["b.com", "c.com"] := by decide
  rw [hu]
  have h1 := eq_singleton_of_nodup _ "c.com"
    (added_nodup oc op ["a.com", "b.com"] ["b.com", "c.com"]) (fun x => by
      rw [mem_added_iff]
      simp only [List.mem_cons, List.mem_singleton, List.not_mem_nil, or_false]
      constructor
      · rintro ⟨h | h, h2⟩
        · exact absurd (Or.inr h) h2
        · exact h
      · rintro rfl
        exact ⟨Or.inr rfl, by decide⟩)
  have h2 := eq_singleton_of_nodup _ "a.com"
    (removed_nodup oc op ["a.com", "b.com"] ["b.com", "c.com"]) (fun x => by
      rw [mem_removed_iff]
      simp only [List.mem_cons, List.mem_singleton, List.not_mem_nil, or_false]
      constructor
      · rintro ⟨h | h, h2⟩
        · exact h
        · exact absurd (Or.inl h) h2
      · rintro rfl
        exact ⟨Or.inl rfl, by decide⟩)
  exact Prod.ext h1 h2

/-- C2: for all item lists `P` and `C`, with `(added, removed) = CompareUniqueURLs P C`:
no item is in both `added` and `removed`, and the items of `P` with every item of
`removed` deleted, together with `added`, are exactly the items of `C`. -/
theorem C2_compareUniqueURLs_reconstructs (oc op : RangeOrder) (P C : List String) :
    (∀ x, ¬ (x ∈ (CompareUniqueURLs oc op P C).1 ∧ x ∈ (CompareUniqueURLs oc op P C).2)) ∧
    (∀ x, x ∈ P.filter (fun y => decide (y ∉ (CompareUniqueURLs oc op P C).2)) ++
        (CompareUniqueURLs oc op P C).1 ↔ x ∈ C) := by
  refine ⟨fun x h => ?_, fun x => ?_⟩
  · exact ((mem_added_iff oc op P C x).1 h.1).2 ((mem_removed_iff oc op P C x).1 h.2).1
  · simp only [List.mem_append, List.mem_filter, decide_eq_true_eq, mem_added_iff,
      mem_removed_iff]
    tauto

/-- C3: for every input list `S`, `GetUniqueURLs S` has no duplicates, has the same
elements as `S`, is a subsequence of `S`, and is exactly the list of first occurrences:
position `i` of `S` is kept iff `S[i]` does not occur before position `i`. -/
theorem C3_getUniqueURLs_first_occurrences (S : List String) :
    (GetUniqueURLs S).Nodup ∧ (∀ x, x ∈ GetUniqueURLs S ↔ x ∈ S) ∧
    (GetUniqueURLs S).Sublist S ∧ GetUniqueURLs S = firstOccurrences S := by
  refine ⟨getUniqueURLs_nodup S, mem_getUniqueURLs S, ?_, getUniqueURLs_eq_firstOccurrences S⟩
  rw [getUniqueURLs_eq_firstOccurrences]
  exact firstOccurrences_sublist S

theorem eval_sendInChunks :
    (sendInChunks ["a", "b", "c"] "T" 2).map (fun l => l.map (fun c => c.message)) =
      .ok ["T (1/2) - 2 domains:\na\nb", "T (2/2) - 1 domains:\nc"] := by
  rfl

/-! ## Lemmas on 64-bit arithmetic and the chunk loop -/

theorem wrapInt_of_range (x : Int) (h1 : -9223372036854775808 ≤ x)
    (h2 : x < 9223372036854775808) : wrapInt x = x := by
  unfold wrapInt
  omega

theorem goDiv_mul_self (j K : Nat) (hK : 1 ≤ K) (hj : ((j * K : Nat) : Int) < 9223372036854775808) :
    goDiv ((j * K : Nat) : Int) (K : Int) = (j : Int) := by
  unfold goDiv
  have h1 : Int.tdiv ((j * K : Nat) : Int) (K : Int) = (j : Int) := by
    rw [Int.tdiv_eq_ediv (Int.natCast_nonneg _) (Int.natCast_nonneg _)]
    push_cast
    exact Int.mul_ediv_cancel _ (by omega)
  rw [h1]
  apply wrapInt_of_range
  · omega
  · have : j ≤ j * K := Nat.le_mul_of_pos_right j (by omega)
    omega

theorem sendLoop_spec (domains : List String) (title : String) (K : Nat) (tc : Int)
    (hK : 1 ≤ K) (hK2 : (K : Int) < 9223372036854775808)
    (hn : domains.length < 4611686018427387904) :
    ∀ (fuel j : Nat) (sent : List ChunkSend), domains.length - j * K < fuel →
      ∃ more, sendLoop domains title (K : Int) (domains.length : Int) tc fuel
          ((j * K : Nat) : Int) sent = .ok (sent ++ more) ∧
        (more.map (fun c => c.chunk)).flatten = domains.drop (j * K) ∧
        (∀ c ∈ more, 1 ≤ c.chunk.length ∧ c.chunk.length ≤ K) ∧
        (∀ c ∈ more.dropLast, c.chunk.length = K) ∧
        more.map (fun c => c.chunkNumber) =
          (List.range more.length).map (fun t => ((j + 1 + t : Nat) : Int)) ∧
        (∀ c ∈ more, c.message = formatChunkMessage c.chunk title c.chunkNumber tc) ∧
        domains.length ≤ j * K + more.length * K ∧
        (more ≠ [] → j * K + (more.length - 1) * K < domains.length) := by
  intro fuel
  induction fuel with
  | zero =>
    intro j sent h
    exact absurd h (by omega)
  | succ fuel ih =>
    intro j sent h
    have hmul : (j + 1) * K = j * K + K := by ring
    by_cases hlt : j * K < domains.length
    · have hjK : j = 0 ∨ K ≤ j * K := by
        rcases Nat.eq_zero_or_pos j with h0 | h0
        · exact Or.inl h0
        · exact Or.inr (Nat.le_mul_of_pos_left K h0)
      have hj0 : j = 0 → j * K = 0 := fun h0 => by simp [h0]
      have hcond : ((j * K : Nat) : Int) < (domains.length : Int) := by omega
      have hend0 : wrapInt (((j * K : Nat) : Int) + (K : Int)) = ((j * K + K : Nat) : Int) := by
        rw [wrapInt_of_range]
        · push_cast; rfl
        · omega
        · rcases hjK with h0 | h0
          · have := hj0 h0
            omega
          · omega
      have hdiv : wrapInt (goDiv ((j * K : Nat) : Int) (K : Int) + 1) = ((j + 1 : Nat) : Int) := by
        rw [goDiv_mul_self j K hK (by omega), wrapInt_of_range]
        · push_cast; rfl
        · omega
        · have : j ≤ j * K := Nat.le_mul_of_pos_right j (by omega)
          omega
      rw [sendLoop, if_pos hcond]
      simp only [hend0, hdiv]
      obtain ⟨L, hL1, hL2, hL3, he⟩ : ∃ L : Nat, 1 ≤ L ∧ L ≤ K ∧
          (L = K ∧ j * K + K ≤ domains.length ∨
            j * K + L = domains.length ∧ domains.length ≤ j * K + K) ∧
          (if ((j * K + K : Nat) : Int) > (domains.length : Int) then (domains.length : Int)
            else ((j * K + K : Nat) : Int)) = ((j * K + L : Nat) : Int) := by
        by_cases hc : j * K + K > domains.length
        · refine ⟨domains.length - j * K, by omega, by omega, Or.inr ⟨by omega, by omega⟩, ?_⟩
          rw [if_pos (by omega)]
          omega
        · exact ⟨K, hK, le_refl _, Or.inl ⟨rfl, by omega⟩, by rw [if_neg (by omega)]⟩
      have hnp : ¬ (((j * K : Nat) : Int) < 0 ∨ ((j * K + L : Nat) : Int) < ((j * K : Nat) : Int)) := by
        omega
      have htn : (((j * K + L : Nat) : Int) - ((j * K : Nat) : Int)).toNat = L := by omega
      have hdn : (((j * K : Nat) : Int)).toNat = j * K := Int.toNat_natCast _
      rw [he, if_neg hnp, htn, hdn, ← hmul]
      have hlen : (List.take L (List.drop (j * K) domains)).length = L := by
        rw [List.length_take, List.length_drop]
        omega
      obtain ⟨more, h1, h2, h3, h4, h5, h6, h7, h8⟩ := ih (j + 1)
        (sent ++ [⟨List.take L (List.drop (j * K) domains), ((j + 1 : Nat) : Int),
          formatChunkMessage (List.take L (List.drop (j * K) domains)) title
            ((j + 1 : Nat) : Int) tc⟩]) (by rw [hmul]; omega)
      refine ⟨⟨List.take L (List.drop (j * K) domains), ((j + 1 : Nat) : Int),
          formatChunkMessage (List.take L (List.drop (j * K) domains)) title
            ((j + 1 : Nat) : Int) tc⟩ :: more, ?_, ?_, ?_, ?_, ?_, ?_, ?_, ?_⟩
      · rw [h1, List.append_assoc, List.singleton_append]
      · rw [List.map_cons, List.flatten_cons, h2, hmul]
        rcases hL3 with ⟨hLK, _⟩ | ⟨hLn, _⟩
        · rw [hLK, ← List.drop_drop, List.take_append_drop]
        · have hd : List.drop (j * K + K) domains = [] := List.drop_eq_nil_of_le (by omega)
          rw [hd, List.append_nil, List.take_of_length_le]
          rw [List.length_drop]
          omega
      · intro c hc
        rcases List.mem_cons.1 hc with rfl | hc
        · simp only [hlen]
          exact ⟨hL1, hL2⟩
        · exact h3 c hc
      · intro c hc
        cases more with
        | nil => simp at hc
        | cons m ms =>
          rw [List.dropLast_cons₂] at hc
          rcases List.mem_cons.1 hc with rfl | hc
          · simp only [hlen]
            have := h8 (by simp)
            rcases hL3 with ⟨hLK, _⟩ | ⟨hLn, _⟩
            · exact hLK
            · rw [hmul] at this
              omega
          · exact h4 c hc
      · rw [List.map_cons, h5, List.length_cons, List.range_succ_eq_map, List.map_cons,
          List.map_map, List.cons.injEq]
        refine ⟨rfl, List.map_congr_left (fun t _ => ?_)⟩
        simp only [Function.comp]
        omega
      · intro c hc
        rcases List.mem_cons.1 hc with rfl | hc
        · rfl
        · exact h6 c hc
      · rw [List.length_cons, Nat.add_mul, one_mul]
        rw [hmul] at h7
        omega
      · intro _
        rw [List.length_cons, Nat.add_sub_cancel]
        cases more with
        | nil =>
          simp only [List.length_nil, zero_mul]
          omega
        | cons m ms =>
          have := h8 (by simp)
          rw [hmul, List.length_cons, Nat.add_sub_cancel] at this
          rw [List.length_cons, Nat.add_mul, one_mul]
          omega
    · refine ⟨[], ?_, ?_, ?_, ?_, ?_, ?_, ?_, ?_⟩
      · have : ¬ (((j * K : Nat) : Int) < (domains.length : Int)) := by omega
        rw [sendLoop, if_neg this, List.append_nil]
      · simp [List.drop_eq_nil_of_le (Nat.le_of_not_lt hlt)]
      · simp
      · simp
      · simp
      · simp
      · simp only [List.length_nil]; omega
      · simp

/-- The label `totalChunks` is the ceiling of `n / k` as long as `n + k - 1` fits in 64
bits. -/
theorem totalChunksOf_eq_ceil (n K : Nat) (hK : 1 ≤ K)
    (hsum : (n : Int) + (K : Int) ≤ 9223372036854775808) :
    totalChunksOf (n : Int) (K : Int) = ⌈(n : ℚ) / (K : ℚ)⌉ := by
  unfold totalChunksOf goDiv
  have hw : wrapInt (wrapInt ((n : Int) + K) - 1) = (n : Int) + K - 1 := by
    unfold wrapInt
    omega
  rw [hw, Int.tdiv_eq_ediv (by omega) (by omega)]
  have hKpos : (0 : Int) < (K : Int) := by omega
  have h1 : ((n : Int) + K - 1) / K * K ≤ (n : Int) + K - 1 := Int.ediv_mul_le _ (by omega)
  have h2 : (n : Int) + K - 1 < ((n : Int) + K - 1) / K * K + K := by
    have := Int.lt_ediv_add_one_mul_self ((n : Int) + K - 1) hKpos
    rw [Int.add_mul, one_mul] at this
    exact this
  have h3 : 0 ≤ ((n : Int) + K - 1) / K := Int.ediv_nonneg (by omega) (by omega)
  have h4 : ((n : Int) + K - 1) / K ≤ ((n : Int) + K - 1) / K * K :=
    le_mul_of_one_le_right h3 (by omega)
  have hKq : (0 : ℚ) < (K : ℚ) := by exact_mod_cast hKpos
  generalize ((n : Int) + K - 1) / K = q at h1 h2 h3 h4 ⊢
  rw [wrapInt_of_range _ (by omega) (by omega)]
  symm
  rw [Int.ceil_eq_iff]
  constructor
  · rw [lt_div_iff₀ hKq]
    have h5 : (q - 1) * (K : Int) < (n : Int) := by
      rw [Int.sub_mul, one_mul]
      omega
    exact_mod_cast h5
  · rw [div_le_iff₀ hKq]
    have h5 : (n : Int) ≤ q * (K : Int) := by omega
    exact_mod_cast h5

/-- With a chunk size close to the largest `int`, the sum `n + k - 1` wraps around and
the label is not the chunk count. -/
theorem totalChunksOf_wraps : totalChunksOf 2 9223372036854775807 = -1 := by
  decide

/-! ## Claims on `subfinder` chunking -/

/-- C4: for every item list of length `n` (shorter than `2^62`, as every Go slice of
strings is) and every chunk size `k ≥ 1` (a 64-bit `int`), `sendInChunks items title k`
returns after publishing exactly `⌈n / k⌉` chunk messages, numbered `1, 2, …` in emission
order; every chunk holds between 1 and `k` items, every chunk but the last holds exactly
`k`, and the chunks concatenated in emission order are `items`. Each published text is
`formatChunkMessage` of its chunk, title, number and the computed total, and that total
is `⌈n / k⌉` whenever `n + k ≤ 2^63`. -/
theorem C4_sendInChunks_chunking (items : List String) (title : String) (k : Int)
    (hk : 1 ≤ k) (hk2 : k < 9223372036854775808)
    (hn : items.length < 4611686018427387904) :
    ∃ sent, sendInChunks items title k = .ok sent ∧
      (sent.length : Int) = ⌈(items.length : ℚ) / (k : ℚ)⌉ ∧
      sent.map (fun c => c.chunkNumber) =
        (List.range sent.length).map (fun t => ((t + 1 : Nat) : Int)) ∧
      (∀ c ∈ sent, 1 ≤ c.chunk.length ∧ (c.chunk.length : Int) ≤ k) ∧
      (∀ c ∈ sent.dropLast, (c.chunk.length : Int) = k) ∧
      (sent.map (fun c => c.chunk)).flatten = items ∧
      (∀ c ∈ sent, c.message =
        formatChunkMessage c.chunk title c.chunkNumber (totalChunksOf items.length k)) ∧
      ((items.length : Int) + k ≤ 9223372036854775808 →
        totalChunksOf items.length k = ⌈(items.length : ℚ) / (k : ℚ)⌉) := by
  obtain ⟨K, rfl⟩ : ∃ K : Nat, k = (K : Int) := ⟨k.toNat, by omega⟩
  have hK : 1 ≤ K := by omega
  obtain ⟨sent, h1, h2, h3, h4, h5, h6, h7, h8⟩ :=
    sendLoop_spec items title K (totalChunksOf items.length K) hK hk2 hn
      (items.length + 1) 0 [] (by omega)
  have hne : ¬ ((K : Int) = 0) := by omega
  refine ⟨sent, ?_, ?_, ?_, ?_, ?_, ?_, h6, ?_⟩
  · unfold sendInChunks
    rw [if_neg hne]
    simpa using h1
  · symm
    rw [Int.ceil_eq_iff]
    have hKq : (0 : ℚ) < (K : ℚ) := by exact_mod_cast hK
    rw [Int.cast_natCast, Int.cast_natCast]
    constructor
    · rw [lt_div_iff₀ hKq]
      cases sent with
      | nil =>
        have : (0 : ℚ) ≤ (items.length : ℚ) := Nat.cast_nonneg _
        simp only [List.length_nil, Nat.cast_zero, Int.cast_zero, zero_sub, neg_mul, one_mul]
        linarith
      | cons m ms =>
        have := h8 (by simp)
        simp only [List.length_cons, Nat.add_sub_cancel, zero_mul, zero_add] at this
        have hq : ((ms.length * K : Nat) : ℚ) < (items.length : ℚ) := by exact_mod_cast this
        simp only [List.length_cons]
        push_cast at hq ⊢
        linarith
    · rw [div_le_iff₀ hKq]
      simp only [zero_mul, zero_add] at h7
      have hq : ((items.length : Nat) : ℚ) ≤ ((sent.length * K : Nat) : ℚ) := by
        exact_mod_cast h7
      push_cast at hq ⊢
      linarith
  · simpa [add_comm] using h5
  · intro c hc
    exact ⟨(h3 c hc).1, by exact_mod_cast (h3 c hc).2⟩
  · intro c hc
    exact_mod_cast h4 c hc
  · simpa using h2
  · intro hsum
    exact totalChunksOf_eq_ceil items.length K hK hsum

/-- C4 at `items = ["a","b","c"]`, `k = 2`. -/
theorem C4_sendInChunks_chunking_witness :
    ∃ sent, sendInChunks ["a", "b", "c"] "T" 2 = .ok sent ∧
      (sent.map (fun c => c.chunk)).flatten = ["a", "b", "c"] := by
  obtain ⟨sent, h1, _, _, _, _, h6, _⟩ :=
    C4_sendInChunks_chunking ["a", "b", "c"] "T" 2 (by decide) (by decide) (by decide)
  exact ⟨sent, h1, h6⟩

/-! ## The delivery task -/

/-- The four possible runs of the delivery task, by the outcomes of the first three
calls. -/
theorem deliveryTask_cases (deliver : Nat → Bool) :
    deliveryTask deliver = .ok (
      if deliver 0 then
        [DeliveryEvent.attempt 1, DeliveryEvent.sent 1]
      else if deliver 1 then
        [DeliveryEvent.attempt 1, DeliveryEvent.failed 1, DeliveryEvent.sleep second,
          DeliveryEvent.attempt 2, DeliveryEvent.sent 2]
      else if deliver 2 then
        [DeliveryEvent.attempt 1, DeliveryEvent.failed 1, DeliveryEvent.sleep second,
          DeliveryEvent.attempt 2, DeliveryEvent.failed 2, DeliveryEvent.sleep (2 * second),
          DeliveryEvent.attempt 3, DeliveryEvent.sent 3]
      else
        [DeliveryEvent.attempt 1, DeliveryEvent.failed 1, DeliveryEvent.sleep second,
          DeliveryEvent.attempt 2, DeliveryEvent.failed 2, DeliveryEvent.sleep (2 * second),
          DeliveryEvent.attempt 3, DeliveryEvent.failed 3, DeliveryEvent.gaveUp 3]) := by
  have w2 : wrapInt 2 = 2 := by decide
  have w3 : wrapInt 3 = 3 := by decide
  have w4 : wrapInt 4 = 4 := by decide
  have d2 : wrapInt (second * 2) = 2 * second := by decide
  have d4 : wrapInt (2 * second * 2) = 4 * second := by decide
  cases h0 : deliver 0 <;> cases h1 : deliver 1 <;> cases h2 : deliver 2 <;>
    simp [deliveryTask, retryLoop, h0, h1, h2, w2, w3, w4, d2, d4]

/-! ## Claims on the notification consumer -/

/-- C5: for every sequence `deliver` of delivery outcomes the delivery task returns, having
called `sendToTelegram` at most 3 times: the number of attempts is the position of the
first success when one of the first 3 calls succeeds, and 3 otherwise; before attempt
`i + 1` it sleeps `2^(i-1)` seconds (1 s, then 2 s) and it sleeps nothing after the last
attempt; it reports success iff one of the first 3 calls succeeds, and otherwise drops
the message. A `deliver` that fails twice and then succeeds gives success after exactly
3 attempts with delays of 1 s and 2 s. -/
theorem C5_deliveryTask_retry (deliver : Nat → Bool) :
    ∃ events, deliveryTask deliver = .ok events ∧
      attemptsOf events ≤ 3 ∧
      (∀ i, i < 3 → deliver i = true → (∀ j, j < i → deliver j = false) →
        attemptsOf events = i + 1) ∧
      ((∀ i, i < 3 → deliver i = false) → attemptsOf events = 3) ∧
      timeline events = backoffSchedule (attemptsOf events) ∧
      delaysOf events = (List.range (attemptsOf events - 1)).map (fun i => 2 ^ i * second) ∧
      (succeeded events = true ↔ ∃ i, i < 3 ∧ deliver i = true) ∧
      dropped events = !succeeded events ∧
      (deliver 0 = false → deliver 1 = false → deliver 2 = true →
        succeeded events = true ∧ attemptsOf events = 3 ∧
        delaysOf events = [1000000000, 2000000000]) := by
  refine ⟨_, deliveryTask_cases deliver, ?_⟩
  cases h0 : deliver 0 <;> cases h1 : deliver 1 <;> cases h2 : deliver 2 <;>
    simp only [if_true, if_false, Bool.false_eq_true] <;>
    refine ⟨by decide, ?_, ?_, by decide, by decide, ?_, by decide, ?_⟩
  all_goals first
    | (intro i hi hd hj
       interval_cases i
       · first
           | decide
           | simp_all
       · have e0 := hj 0 (by omega)
         first
           | decide
           | simp_all
       · have e0 := hj 0 (by omega)
         have e1 := hj 1 (by omega)
         first
           | decide
           | simp_all)
    | (intro hall
       have e0 := hall 0 (by omega)
       have e1 := hall 1 (by omega)
       have e2 := hall 2 (by omega)
       first
         | decide
         | simp_all)
    | (constructor
       · intro _
         first
           | exact ⟨0, by omega, h0⟩
           | exact ⟨1, by omega, h1⟩
           | exact ⟨2, by omega, h2⟩
       · intro _
         decide)
    | (constructor
       · intro hs
         exact absurd hs (by decide)
       · rintro ⟨i, hi, hd⟩
         interval_cases i <;> simp_all)
    | (intro e0 e1 e2
       first
         | decide
         | simp_all)

/-! ## The worker pool -/

theorem getD_lt_of_ne (ws : List Worker) (i : Nat) (h : ws.getD i Worker.exited ≠ Worker.exited) :
    i < ws.length := by
  by_contra hlt
  exact h (List.getD_eq_default _ _ (Nat.le_of_not_lt hlt))

theorem flatMap_set (f : Worker → List String) (ws : List Worker) (i : Nat) (w : Worker)
    (hi : i < ws.length) :
    ((f (ws.getD i Worker.exited) : Multiset String) + ((ws.set i w).flatMap f : Multiset String))
      = (f w : Multiset String) + (ws.flatMap f : Multiset String) := by
  induction ws generalizing i with
  | nil => simp at hi
  | cons a ws ih =>
    cases i with
    | zero =>
      simp only [List.getD_cons_zero, List.set_cons_zero, List.flatMap_cons, ← Multiset.coe_add]
      exact add_left_comm _ _ _
    | succ i =>
      have := ih i (by simpa using hi)
      simp only [List.getD_cons_succ, List.set_cons_succ, List.flatMap_cons, Multiset.coe_add,
        ← Multiset.coe_add] at this ⊢
      calc (f (ws.getD i Worker.exited) : Multiset String) + ((f a : Multiset String) +
            ((ws.set i w).flatMap f : Multiset String))
          = (f a : Multiset String) + ((f (ws.getD i Worker.exited) : Multiset String) +
            ((ws.set i w).flatMap f : Multiset String)) := add_left_comm _ _ _
        _ = (f a : Multiset String) + ((f w : Multiset String) +
            (ws.flatMap f : Multiset String)) := by rw [this]
        _ = _ := add_left_comm _ _ _

theorem weight_set (ws : List Worker) (i : Nat) (w : Worker) (hi : i < ws.length) :
    weight (ws.getD i Worker.exited) + ((ws.set i w).map weight).sum =
      weight w + (ws.map weight).sum := by
  induction ws generalizing i with
  | nil => simp at hi
  | cons a ws ih =>
    cases i with
    | zero =>
      simp only [List.getD_cons_zero, List.set_cons_zero, List.map_cons, List.sum_cons]
      omega
    | succ i =>
      have := ih i (by simpa using hi)
      simp only [List.getD_cons_succ, List.set_cons_succ, List.map_cons, List.sum_cons] at this ⊢
      omega

theorem getD_mem (ws : List Worker) (i : Nat) (hi : i < ws.length) :
    ws.getD i Worker.exited ∈ ws := by
  rw [List.getD_eq_getElem _ _ hi]
  exact List.getElem_mem hi

theorem coe_snoc (l : List String) (h : String) :
    ((l ++ [h] : List String) : Multiset String) = (l : Multiset String) + {h} := by
  rw [← Multiset.coe_add, Multiset.coe_singleton]

theorem coe_cons_add (h : String) (l : List String) :
    ((h :: l : List String) : Multiset String) = {h} + (l : Multiset String) := by
  rw [← Multiset.cons_coe, Multiset.singleton_add]

theorem mem_enabled (s : Pool) (a : Actor) :
    a ∈ enabled s ↔ (a = Actor.main ∧ mainEnabled s = true) ∨
      ∃ i, a = Actor.worker i ∧ i < s.workers.length ∧
        workerEnabled s (s.workers.getD i Worker.exited) = true := by
  unfold enabled
  rw [List.mem_append]
  constructor
  · rintro (h | h)
    · left
      by_cases hm : mainEnabled s = true
      · rw [if_pos hm] at h
        exact ⟨by simpa using h, hm⟩
      · rw [if_neg hm] at h
        simp at h
    · right
      obtain ⟨i, hi, rfl⟩ := List.mem_map.1 h
      rw [List.mem_filter, List.mem_range] at hi
      exact ⟨i, rfl, hi.1, hi.2⟩
  · rintro (⟨rfl, hm⟩ | ⟨i, rfl, hi, he⟩)
    · left
      rw [if_pos hm]
      simp
    · right
      exact List.mem_map.2 ⟨i, List.mem_filter.2 ⟨List.mem_range.2 hi, he⟩, rfl⟩

theorem initPool_inv (fetch : String → Except GoError (List String)) (handles : List String) :
    PoolInv fetch handles (initPool handles) where
  cap_eq := rfl
  sent_perm := by
    have h : (List.replicate (numWorkers handles.length) Worker.idle).flatMap held = [] := by
      rw [List.flatMap_eq_nil_iff]
      intro w hw
      rw [List.eq_of_mem_replicate hw]
      rfl
    simp [initPool, restOf, h]
  fetch_perm := by
    have h : (List.replicate (numWorkers handles.length) Worker.idle).flatMap heldUnfetched
        = [] := by
      rw [List.flatMap_eq_nil_iff]
      intro w hw
      rw [List.eq_of_mem_replicate hw]
      rfl
    simp [initPool, restOf, h]
  results_eq := rfl
  errors_eq := rfl
  sending_eq := by
    intro h r hm
    have := List.eq_of_mem_replicate hm
    cases this
  closed_iff := by
    simp only [initPool, restOf]
    constructor
    · intro h
      cases h
    · rintro ⟨h1, h2⟩
      exact absurd (by rw [h1]) h2
  finished_exited := by
    intro h
    cases h
  exited_drained := by
    intro hm
    have := List.eq_of_mem_replicate hm
    cases this
  workers_len := by simp [initPool]

theorem stepMain_inv (fetch : String → Except GoError (List String)) (handles : List String)
    (s : Pool) (inv : PoolInv fetch handles s) (he : mainEnabled s = true) :
    PoolInv fetch handles (stepMain s) := by
  obtain ⟨h1, h2, h3, h4, h5, h6, h7, h8, h9, h10⟩ := inv
  unfold stepMain
  cases hm : s.main with
  | feeding rest =>
    cases rest with
    | cons handle rest =>
      simp only [hm, restOf] at h2 h3 h7 ⊢
      refine ⟨h1, ?_, ?_, h4, h5, h6, ?_, ?_, ?_, h10⟩
      · rw [← h2, coe_snoc, coe_cons_add]
        simp only [add_assoc, restOf]
      · rw [← h3, coe_snoc, coe_cons_add]
        simp only [add_assoc, restOf]
      · simp only [restOf]
        constructor
        · intro hc
          exact absurd (h7.1 hc).1 (by simp)
        · rintro ⟨hr, hne⟩
          exact absurd (by rw [hr]) hne
      · intro hf
        cases hf
      · intro hx
        have := (h7.1 (h9 hx).2).1
        simp at this
    | nil =>
      simp only [hm, restOf] at h2 h3 h7 ⊢
      refine ⟨h1, h2, h3, h4, h5, h6, ?_, ?_, ?_, h10⟩
      · simp [restOf]
      · intro hf
        cases hf
      · intro hx
        exact ⟨(h9 hx).1, rfl⟩
  | waiting =>
    simp only [hm, restOf] at h2 h3 h7 ⊢
    refine ⟨h1, h2, h3, h4, h5, h6, ?_, ?_, h9, h10⟩
    · simp only [restOf]
      constructor
      · intro _
        exact ⟨trivial, by simp⟩
      · intro _
        exact h7.2 ⟨trivial, by simp⟩
    · intro _ w hw
      simp only [mainEnabled, hm, List.all_eq_true, beq_iff_eq] at he
      exact he w hw
  | finished =>
    simp [mainEnabled, hm] at he

theorem stepWorker_inv (fetch : String → Except GoError (List String)) (handles : List String)
    (s : Pool) (inv : PoolInv fetch handles s) (i : Nat) (hi : i < s.workers.length)
    (he : workerEnabled s (s.workers.getD i Worker.exited) = true) :
    PoolInv fetch handles (stepWorker fetch s i) := by
  obtain ⟨h1, h2, h3, h4, h5, h6, h7, h8, h9, h10⟩ := inv
  have hmem := getD_mem s.workers i hi
  have hheld := fun w => flatMap_set held s.workers i w hi
  have hunf := fun w => flatMap_set heldUnfetched s.workers i w hi
  have hnotfin : s.main = MainPc.finished → s.workers.getD i Worker.exited = Worker.exited :=
    fun hf => h8 hf _ hmem
  unfold stepWorker
  cases hw : s.workers.getD i Worker.exited with
  | idle =>
    rw [hw] at hheld hunf hnotfin hmem he
    cases hj : s.jobs with
    | cons handle rest =>
      simp only
      have e1 := hheld (Worker.fetching handle)
      have e2 := hunf (Worker.fetching handle)
      simp only [held, heldUnfetched, Multiset.coe_nil, zero_add, Multiset.coe_singleton] at e1 e2
      rw [hj] at h2 h3 h9
      refine ⟨h1, ?_, ?_, h4, h5, ?_, h7, ?_, ?_, ?_⟩
      · rw [← h2, e1, coe_cons_add]
        simp only [add_assoc, add_left_comm, add_comm]
      · rw [← h3, e2, coe_cons_add]
        simp only [add_assoc, add_left_comm, add_comm]
      · intro h r hm
        rcases List.mem_or_eq_of_mem_set hm with hm | hm
        · exact h6 h r hm
        · cases hm
      · intro hf
        exact absurd (hnotfin hf) (by simp)
      · intro hx
        rcases List.mem_or_eq_of_mem_set hx with hx | hx
        · exact absurd (h9 hx).1 (by simp)
        · cases hx
      · simpa using h10
    | nil =>
      simp only
      have e1 := hheld Worker.exited
      have e2 := hunf Worker.exited
      simp only [held, heldUnfetched, Multiset.coe_nil, zero_add] at e1 e2
      have hclosed : s.jobsClosed = true := by
        simpa [workerEnabled, hj] using he
      rw [hj] at h2 h3
      refine ⟨h1, ?_, ?_, h4, h5, ?_, h7, ?_, ?_, ?_⟩
      · rw [e1]
        exact h2
      · rw [e2]
        exact h3
      · intro h r hm
        rcases List.mem_or_eq_of_mem_set hm with hm | hm
        · exact h6 h r hm
        · cases hm
      · intro hf
        exact absurd (hnotfin hf) (by simp)
      · intro _
        exact ⟨rfl, hclosed⟩
      · simpa using h10
  | fetching handle =>
    rw [hw] at hheld hunf hnotfin hmem
    simp only
    have e1 := hheld (Worker.sending handle (fetch handle))
    have e2 := hunf (Worker.sending handle (fetch handle))
    simp only [held, heldUnfetched, Multiset.coe_nil, zero_add, Multiset.coe_singleton,
      add_right_inj] at e1 e2
    refine ⟨h1, ?_, ?_, h4, h5, ?_, h7, ?_, ?_, ?_⟩
    · rw [e1]
      exact h2
    · rw [← h3, ← e2, coe_snoc]
      simp only [add_assoc]
    · intro h r hm
      rcases List.mem_or_eq_of_mem_set hm with hm | hm
      · exact h6 h r hm
      · cases hm
        rfl
    · intro hf
      exact absurd (hnotfin hf) (by simp)
    · intro hx
      rcases List.mem_or_eq_of_mem_set hx with hx | hx
      · exact h9 hx
      · cases hx
    · simpa using h10
  | sending handle res =>
    rw [hw] at hheld hunf hnotfin hmem
    have hres : res = fetch handle := h6 handle res hmem
    cases res with
    | ok urls =>
      simp only
      have e1 := hheld Worker.sleeping
      have e2 := hunf Worker.sleeping
      simp only [held, heldUnfetched, Multiset.coe_nil, zero_add, Multiset.coe_singleton] at e1 e2
      refine ⟨h1, ?_, ?_, ?_, ?_, ?_, h7, ?_, ?_, ?_⟩
      · rw [← h2, ← e1, coe_snoc]
        simp only [add_assoc]
      · rw [e2]
        exact h3
      · rw [List.filterMap_append, ← h4]
        simp [← hres, okUrls]
      · rw [List.filterMap_append, ← h5]
        simp [← hres, sentError]
      · intro h r hm
        rcases List.mem_or_eq_of_mem_set hm with hm | hm
        · exact h6 h r hm
        · cases hm
      · intro hf
        exact absurd (hnotfin hf) (by simp)
      · intro hx
        rcases List.mem_or_eq_of_mem_set hx with hx | hx
        · exact h9 hx
        · cases hx
      · simpa using h10
    | error e =>
      simp only
      have e1 := hheld Worker.idle
      have e2 := hunf Worker.idle
      simp only [held, heldUnfetched, Multiset.coe_nil, zero_add, Multiset.coe_singleton] at e1 e2
      refine ⟨h1, ?_, ?_, ?_, ?_, ?_, h7, ?_, ?_, ?_⟩
      · rw [← h2, ← e1, coe_snoc]
        simp only [add_assoc]
      · rw [e2]
        exact h3
      · rw [List.filterMap_append, ← h4]
        simp [← hres, okUrls]
      · rw [List.filterMap_append, ← h5]
        simp [← hres, sentError]
      · intro h r hm
        rcases List.mem_or_eq_of_mem_set hm with hm | hm
        · exact h6 h r hm
        · cases hm
      · intro hf
        exact absurd (hnotfin hf) (by simp)
      · intro hx
        rcases List.mem_or_eq_of_mem_set hx with hx | hx
        · exact h9 hx
        · cases hx
      · simpa using h10
  | sleeping =>
    rw [hw] at hheld hunf hnotfin hmem
    simp only
    have e1 := hheld Worker.idle
    have e2 := hunf Worker.idle
    simp only [held, heldUnfetched, Multiset.coe_nil, zero_add] at e1 e2
    refine ⟨h1, ?_, ?_, h4, h5, ?_, h7, ?_, ?_, ?_⟩
    · rw [e1]
      exact h2
    · rw [e2]
      exact h3
    · intro h r hm
      rcases List.mem_or_eq_of_mem_set hm with hm | hm
      · exact h6 h r hm
      · cases hm
    · intro hf
      exact absurd (hnotfin hf) (by simp)
    · intro hx
      rcases List.mem_or_eq_of_mem_set hx with hx | hx
      · exact h9 hx
      · cases hx
    · simpa using h10
  | exited =>
    simp only
    exact ⟨h1, h2, h3, h4, h5, h6, h7, h8, h9, h10⟩

theorem stepMain_measure (s : Pool) (he : mainEnabled s = true) :
    poolMeasure (stepMain s) < poolMeasure s := by
  unfold stepMain poolMeasure
  cases hm : s.main with
  | feeding rest =>
    cases rest with
    | cons handle rest =>
      simp only [mainWeight, List.length_append, List.length_cons, List.length_nil]
      omega
    | nil =>
      simp only [mainWeight, List.length_nil]
      omega
  | waiting =>
    simp only [mainWeight]
    omega
  | finished =>
    simp [mainEnabled, hm] at he

theorem stepWorker_measure (fetch : String → Except GoError (List String)) (s : Pool) (i : Nat)
    (hi : i < s.workers.length)
    (he : workerEnabled s (s.workers.getD i Worker.exited) = true) :
    poolMeasure (stepWorker fetch s i) < poolMeasure s := by
  have hws := fun w => weight_set s.workers i w hi
  unfold stepWorker poolMeasure
  cases hw : s.workers.getD i Worker.exited with
  | idle =>
    rw [hw] at hws
    cases hj : s.jobs with
    | cons handle rest =>
      have := hws (Worker.fetching handle)
      simp only [weight, List.length_cons] at this ⊢
      omega
    | nil =>
      have := hws Worker.exited
      simp only [weight, List.length_nil] at this ⊢
      omega
  | fetching handle =>
    rw [hw] at hws
    have := hws (Worker.sending handle (fetch handle))
    simp only [weight] at this ⊢
    omega
  | sending handle res =>
    rw [hw] at hws
    cases res with
    | ok urls =>
      have := hws Worker.sleeping
      simp only [weight] at this ⊢
      omega
    | error e =>
      have := hws Worker.idle
      simp only [weight] at this ⊢
      omega
  | sleeping =>
    rw [hw] at hws
    have := hws Worker.idle
    simp only [weight] at this ⊢
    omega
  | exited =>
    rw [hw] at he
    simp [workerEnabled] at he

theorem step_inv (fetch : String → Except GoError (List String)) (handles : List String)
    (s : Pool) (inv : PoolInv fetch handles s) (a : Actor) (ha : a ∈ enabled s) :
    PoolInv fetch handles (step fetch s a) := by
  rcases (mem_enabled s a).1 ha with ⟨rfl, hm⟩ | ⟨i, rfl, hi, he⟩
  · exact stepMain_inv fetch handles s inv hm
  · exact stepWorker_inv fetch handles s inv i hi he

theorem step_measure (fetch : String → Except GoError (List String)) (s : Pool) (a : Actor)
    (ha : a ∈ enabled s) : poolMeasure (step fetch s a) < poolMeasure s := by
  rcases (mem_enabled s a).1 ha with ⟨rfl, hm⟩ | ⟨i, rfl, hi, he⟩
  · exact stepMain_measure s hm
  · exact stepWorker_measure fetch s i hi he

/-- Cardinalities in the conservation law of the invariant. -/
theorem inv_card (fetch : String → Except GoError (List String)) (handles : List String)
    (s : Pool) (inv : PoolInv fetch handles s) :
    s.sentLog.length + (s.workers.flatMap held).length + s.jobs.length + (restOf s.main).length
      = handles.length := by
  have := congrArg Multiset.card inv.sent_perm
  simp only [Multiset.card_add, Multiset.coe_card] at this
  exact this

/-- No deadlock: when no goroutine can move, `wg.Wait()` has returned. -/
theorem finished_of_stuck (fetch : String → Except GoError (List String))
    (handles : List String) (s : Pool) (inv : PoolInv fetch handles s)
    (hstuck : enabled s = []) : s.main = MainPc.finished := by
  have hcard := inv_card fetch handles s inv
  have hno : ∀ a, a ∉ enabled s := fun a ha => by simp [hstuck] at ha
  have hmain : mainEnabled s = false := by
    cases hme : mainEnabled s
    · rfl
    · exact absurd ((mem_enabled s Actor.main).2 (Or.inl ⟨rfl, hme⟩)) (hno _)
  cases hm : s.main with
  | feeding rest =>
    cases rest with
    | cons handle rest =>
      rw [hm] at hcard
      simp only [mainEnabled, hm, decide_eq_false_iff_not, inv.cap_eq, restOf,
        List.length_cons] at hmain hcard
      omega
    | nil => simp [mainEnabled, hm] at hmain
  | waiting =>
    exfalso
    simp only [mainEnabled, hm] at hmain
    have hex : ∃ w ∈ s.workers, w ≠ Worker.exited := by
      by_contra hcon
      push_neg at hcon
      have : s.workers.all (fun w => w == Worker.exited) = true := by
        simpa [List.all_eq_true] using hcon
      rw [this] at hmain
      exact Bool.noConfusion hmain
    obtain ⟨w, hw, hne⟩ := hex
    obtain ⟨i, hi, rfl⟩ := List.mem_iff_getElem.1 hw
    have hgd : s.workers.getD i Worker.exited = s.workers[i] := List.getD_eq_getElem _ _ hi
    have hclosed : s.jobsClosed = true := inv.closed_iff.2 (by simp [hm, restOf])
    have hen : workerEnabled s (s.workers.getD i Worker.exited) = true := by
      rw [hgd]
      cases hwi : s.workers[i] with
      | idle => simp [workerEnabled, hclosed]
      | fetching handle => rfl
      | sending handle res =>
        have hpos : 0 < (s.workers.flatMap held).length :=
          List.length_pos_of_mem
            (List.mem_flatMap.2 ⟨_, hw, (by rw [hwi]; simp [held] : handle ∈ held s.workers[i])⟩)
        have hr : s.results.length ≤ s.sentLog.length := by
          rw [inv.results_eq]
          exact List.length_filterMap_le _ _
        have he : s.errorsChan.length ≤ s.sentLog.length := by
          rw [inv.errors_eq]
          exact List.length_filterMap_le _ _
        cases res with
        | ok urls =>
          simp only [workerEnabled, decide_eq_true_eq, inv.cap_eq]
          omega
        | error e =>
          simp only [workerEnabled, decide_eq_true_eq, inv.cap_eq]
          omega
      | sleeping => rfl
      | exited => exact absurd hwi hne
    exact hno _ ((mem_enabled s (Actor.worker i)).2 (Or.inr ⟨i, rfl, hi, hen⟩))
  | finished => rfl

/-- Under every scheduler the pool stops within `poolMeasure` steps, and it stops with
`wg.Wait()` returned. -/
theorem runPool_spec (fetch : String → Except GoError (List String)) (pick : Nat → Nat)
    (handles : List String) :
    ∀ (fuel t : Nat) (s : Pool), PoolInv fetch handles s → poolMeasure s ≤ fuel →
      ∃ s', runPool fetch pick fuel t s = .ok s' ∧ PoolInv fetch handles s' ∧
        s'.main = MainPc.finished := by
  intro fuel
  induction fuel with
  | zero =>
    intro t s inv hle
    have hstuck : enabled s = [] := by
      cases he : enabled s with
      | nil => rfl
      | cons a as =>
        have := step_measure fetch s a (by rw [he]; exact List.mem_cons_self _ _)
        omega
    refine ⟨s, ?_, inv, finished_of_stuck fetch handles s inv hstuck⟩
    simp [runPool, hstuck]
  | succ fuel ih =>
    intro t s inv hle
    cases he : enabled s with
    | nil =>
      refine ⟨s, ?_, inv, finished_of_stuck fetch handles s inv he⟩
      simp [runPool, he]
    | cons a as =>
      have hidx : pick t % (as.length + 1) < (a :: as).length := by
        simpa using Nat.mod_lt _ (Nat.succ_pos _)
      have hmem : (a :: as).getD (pick t % (as.length + 1)) a ∈ enabled s := by
        rw [he, List.getD_eq_getElem _ _ hidx]
        exact List.getElem_mem hidx
      have hlt := step_measure fetch s _ hmem
      obtain ⟨s', hrun, hinv, hfin⟩ := ih (t + 1) _ (step_inv fetch handles s inv _ hmem)
        (by omega)
      exact ⟨s', by simp only [runPool, he]; exact hrun, hinv, hfin⟩

theorem numWorkers_eq_zero (n : Nat) (h : numWorkers n = 0) : n = 0 := by
  unfold numWorkers at h
  split at h <;> omega

/-- Once `wg.Wait()` has returned, every handle has been fetched exactly once and its
outcome sent exactly once. -/
theorem finished_logs (fetch : String → Except GoError (List String)) (handles : List String)
    (s : Pool) (inv : PoolInv fetch handles s) (hfin : s.main = MainPc.finished) :
    s.sentLog.Perm handles ∧ s.fetchLog.Perm handles := by
  have hall := inv.finished_exited hfin
  have hheld : s.workers.flatMap held = [] := by
    rw [List.flatMap_eq_nil_iff]
    intro w hw
    rw [hall w hw]
    rfl
  have hunf : s.workers.flatMap heldUnfetched = [] := by
    rw [List.flatMap_eq_nil_iff]
    intro w hw
    rw [hall w hw]
    rfl
  have hjobs : s.jobs = [] := by
    cases hws : s.workers with
    | nil =>
      have h0 : handles.length = 0 :=
        numWorkers_eq_zero _ (by rw [← inv.workers_len, hws]; rfl)
      have := inv_card fetch handles s inv
      exact List.length_eq_zero.1 (by omega)
    | cons w ws =>
      have hw : w ∈ s.workers := by rw [hws]; exact List.mem_cons_self _ _
      exact (inv.exited_drained (hall w hw ▸ hw)).1
  have h2 := inv.sent_perm
  have h3 := inv.fetch_perm
  rw [hheld, hjobs, hfin] at h2
  rw [hunf, hjobs, hfin] at h3
  simp only [restOf, Multiset.coe_nil, add_zero] at h2 h3
  exact ⟨Multiset.coe_eq_coe.1 h2, Multiset.coe_eq_coe.1 h3⟩

/-- The pool of `GetAllUrlsProducer` always returns: description of the returned value
through the order `sent` in which the workers sent their outcomes. -/
theorem getAllUrlsProducer_ok (fetch : String → Except GoError (List String))
    (pick : Nat → Nat) (handles : List String) :
    ∃ sent calls : List String, sent.Perm handles ∧ calls.Perm handles ∧
      GetAllUrlsProducer (.ok handles) fetch pick = .ok
        (if 0 < (sent.filterMap (fun h => sentError h (fetch h))).length then
          { urls := [], fetchCalls := calls
            err := some (GoError.errorf "encountered errors while fetching scopes") }
        else
          { urls := (sent.filterMap (fun h => okUrls (fetch h))).flatten, err := none
            fetchCalls := calls }) := by
  obtain ⟨s, hrun, hinv, hfin⟩ := runPool_spec fetch pick handles
    (5 * handles.length + numWorkers handles.length + 2) 0 (initPool handles)
    (initPool_inv fetch handles) (by
      simp only [poolMeasure, initPool, mainWeight, List.length_nil, List.map_replicate,
        List.sum_replicate, weight]
      simp only [smul_eq_mul, mul_one, mul_zero, add_zero]
      omega)
  obtain ⟨hs, hf⟩ := finished_logs fetch handles s hinv hfin
  refine ⟨s.sentLog, s.fetchLog, hs, hf, ?_⟩
  simp only [GetAllUrlsProducer, hrun, hfin, if_true, ← hinv.errors_eq, ← hinv.results_eq]
  split <;> rfl

theorem filterMap_all_ok (fetch : String → Except GoError (List String)) (l : List String)
    (hall : ∀ h ∈ l, ∃ urls, fetch h = .ok urls) :
    l.filterMap (fun h => sentError h (fetch h)) = [] ∧
    (l.filterMap (fun h => okUrls (fetch h))).flatten = l.flatMap (fun h => itemsOf (fetch h)) := by
  induction l with
  | nil => simp
  | cons a l ih =>
    obtain ⟨urls, hu⟩ := hall a (List.mem_cons_self _ _)
    obtain ⟨ih1, ih2⟩ := ih (fun h hh => hall h (List.mem_cons_of_mem _ hh))
    constructor
    · rw [List.filterMap_cons, hu]
      simpa [sentError] using ih1
    · have e : okUrls (fetch a) = some urls := by rw [hu]; rfl
      rw [List.filterMap_cons]
      simp only [e]
      rw [List.flatten_cons, ih2, List.flatMap_cons, hu]
      rfl

theorem filterMap_sentError_pos (fetch : String → Except GoError (List String))
    (l : List String) :
    0 < (l.filterMap (fun h => sentError h (fetch h))).length ↔
      ∃ h ∈ l, ∃ e, fetch h = .error e := by
  rw [List.length_pos_iff_exists_mem]
  constructor
  · rintro ⟨x, hx⟩
    obtain ⟨h, hh, hs⟩ := List.mem_filterMap.1 hx
    refine ⟨h, hh, ?_⟩
    cases hf : fetch h with
    | ok urls => simp [hf, sentError] at hs
    | error e => exact ⟨e, rfl⟩
  · rintro ⟨h, hh, e, he⟩
    exact ⟨_, List.mem_filterMap.2 ⟨h, hh, by rw [he]; rfl⟩⟩

/-! ## Claims on the collector -/

/-- C6: for every handle listing, fetch function and scheduler, `GetAllUrlsProducer`
returns; if the listing succeeded and the fetch of at least one partition fails, it
returns the error "encountered errors while fetching scopes" and no items, whatever the
other partitions returned; a returned error always comes with no items; and it returns
an error only if the handle listing failed or some partition fetch failed. -/
theorem C6_collector_fails_on_any_error (fetch : String → Except GoError (List String))
    (pick : Nat → Nat) (listing : Except GoError (List String)) :
    ∃ out, GetAllUrlsProducer listing fetch pick = .ok out ∧
      (∀ handles, listing = .ok handles → (∃ h ∈ handles, ∃ e, fetch h = .error e) →
        out.err = some (GoError.errorf "encountered errors while fetching scopes") ∧
        out.urls = []) ∧
      (out.err ≠ none → out.urls = []) ∧
      (out.err ≠ none → (∃ e, listing = .error e) ∨
        ∃ handles, listing = .ok handles ∧ ∃ h ∈ handles, ∃ e, fetch h = .error e) := by
  cases listing with
  | error e =>
    refine ⟨_, rfl, ?_, fun _ => rfl, fun _ => Or.inl ⟨e, rfl⟩⟩
    intro handles hl
    cases hl
  | ok handles =>
    obtain ⟨sent, calls, hs, _, hrun⟩ := getAllUrlsProducer_ok fetch pick handles
    refine ⟨_, hrun, ?_, ?_, ?_⟩
    · intro handles' hl hfail
      cases hl
      obtain ⟨h, hh, e, he⟩ := hfail
      rw [if_pos ((filterMap_sentError_pos fetch sent).2 ⟨h, hs.mem_iff.2 hh, e, he⟩)]
      exact ⟨rfl, rfl⟩
    · intro herr
      split
      · rfl
      · rename_i hneg
        rw [if_neg hneg] at herr
        exact absurd rfl herr
    · intro herr
      right
      refine ⟨handles, rfl, ?_⟩
      by_cases hpos : 0 < (sent.filterMap (fun h => sentError h (fetch h))).length
      · obtain ⟨h, hh, e, he⟩ := (filterMap_sentError_pos fetch sent).1 hpos
        exact ⟨h, hs.mem_iff.1 hh, e, he⟩
      · rw [if_neg hpos] at herr
        exact absurd rfl herr

/-- C7: for every list of partitions whose fetches all succeed, under every scheduler,
`GetAllUrlsProducer` returns no error, has called the fetch exactly once per partition
(the calls are a rearrangement of the partition list), and returns the per-partition item
lists concatenated in some order of the partitions, hence a permutation of their
concatenation; the pool has `min(10, N)` workers, so with no partitions it starts
`min(10, 0) = 0` workers, and it then returns an empty item list and no error. -/
theorem C7_collector_union (fetch : String → Except GoError (List String)) (pick : Nat → Nat)
    (handles : List String) (hall : ∀ h ∈ handles, ∃ urls, fetch h = .ok urls) :
    (∃ (out : Collected) (order : List String),
      GetAllUrlsProducer (.ok handles) fetch pick = .ok out ∧ out.err = none ∧
      out.fetchCalls.Perm handles ∧ order.Perm handles ∧
      out.urls = order.flatMap (fun h => itemsOf (fetch h)) ∧
      out.urls.Perm (handles.flatMap (fun h => itemsOf (fetch h)))) ∧
    ((initPool handles).workers.length = min 10 handles.length ∧
      numWorkers 0 = 0 ∧ (initPool []).workers = [] ∧
      GetAllUrlsProducer (.ok []) fetch pick = .ok { urls := [], err := none, fetchCalls := [] })
    := by
  refine ⟨?_, ?_, rfl, rfl, ?_⟩
  rotate_left
  · simp only [initPool, List.length_replicate, numWorkers]
    split <;> omega
  · obtain ⟨sent, calls, hs, hc, hrun⟩ := getAllUrlsProducer_ok fetch pick []
    rw [List.perm_nil.1 hs, List.perm_nil.1 hc] at hrun
    exact hrun
  obtain ⟨sent, calls, hs, hc, hrun⟩ := getAllUrlsProducer_ok fetch pick handles
  obtain ⟨h1, h2⟩ := filterMap_all_ok fetch sent (fun h hh => hall h (hs.mem_iff.1 hh))
  rw [h1, h2] at hrun
  simp only [List.length_nil, lt_self_iff_false, if_false] at hrun
  exact ⟨_, sent, hrun, rfl, hc, hs, rfl, List.Perm.flatMap_right _ hs⟩

/-- C7 at two partitions, each yielding its own name. -/
theorem C7_collector_union_witness :
    ∃ out, GetAllUrlsProducer (.ok ["p1", "p2"]) (fun h => .ok [h]) (fun t => t) = .ok out ∧
      out.err = none ∧ out.urls.Perm ["p1", "p2"] := by
  obtain ⟨⟨out, _, h1, h2, _, _, _, h6⟩, _⟩ :=
    C7_collector_union (fun h => .ok [h]) (fun t => t) ["p1", "p2"] (fun h _ => ⟨[h], rfl⟩)
  exact ⟨out, h1, h2, h6⟩

/-! ## JSON round trip -/

theorem hexVal_hexDigit (k : Nat) (hk : k < 16) : hexVal (hexDigit k) = some k := by
  interval_cases k <;> decide

theorem hexVal4_hex4 (n : Nat) (hn : n < 65536) :
    hexVal4 (hexDigit (n / 4096 % 16)) (hexDigit (n / 256 % 16)) (hexDigit (n / 16 % 16))
      (hexDigit (n % 16)) = some n := by
  unfold hexVal4
  rw [hexVal_hexDigit _ (Nat.mod_lt _ (by decide)), hexVal_hexDigit _ (Nat.mod_lt _ (by decide)),
    hexVal_hexDigit _ (Nat.mod_lt _ (by decide)), hexVal_hexDigit _ (Nat.mod_lt _ (by decide))]
  simp only [Option.some.injEq]
  omega

theorem escapeChar_length_pos (c : Char) : 1 ≤ (escapeChar c).length := by
  unfold escapeChar
  split_ifs <;> simp [hex4]

theorem decodeBody_escapeChar (c : Char) (fuel : Nat) (tail : List Char) :
    decodeBody (fuel + 1) (escapeChar c ++ tail) =
      (decodeBody fuel tail).map (fun p => (c :: p.1, p.2)) := by
  unfold escapeChar
  split_ifs with h1 h2 h3 h4 h5 h6
  · subst h1
    simp [decodeBody, simpleEscape]
  · subst h2
    simp [decodeBody, simpleEscape]
  · subst h3
    simp [decodeBody, simpleEscape]
  · subst h4
    simp [decodeBody, simpleEscape]
  · subst h5
    simp [decodeBody, simpleEscape]
  · have hlt : c.toNat < 65536 := by
      rcases h6 with h | h | h | h | h | h
      · omega
      · subst h; decide
      · subst h; decide
      · subst h; decide
      · omega
      · omega
    have hns : ¬ (55296 ≤ c.toNat ∧ c.toNat < 57344) := by
      rcases h6 with h | h | h | h | h | h
      · omega
      · subst h; decide
      · subst h; decide
      · subst h; decide
      · omega
      · omega
    simp only [hex4, List.cons_append, List.nil_append, decodeBody]
    simp [hexVal4_hex4 c.toNat hlt, hns, Char.ofNat_toNat]
  · have hn32 : ¬ c.toNat < 32 := fun h => h6 (Or.inl h)
    simp [decodeBody, h1, h2, hn32]

theorem decodeBody_quote (fuel : Nat) (rest : List Char) :
    decodeBody (fuel + 1) ('"' :: rest) = some ([], rest) := by
  simp [decodeBody]

theorem decodeBody_encode (s : List Char) :
    ∀ (fuel : Nat) (rest : List Char), s.length < fuel →
      decodeBody fuel (s.flatMap escapeChar ++ '"' :: rest) = some (s, rest) := by
  induction s with
  | nil =>
    intro fuel rest h
    obtain ⟨f, rfl⟩ : ∃ f, fuel = f + 1 := ⟨fuel - 1, by simp at h; omega⟩
    simpa using decodeBody_quote f rest
  | cons c s ih =>
    intro fuel rest h
    obtain ⟨f, rfl⟩ : ∃ f, fuel = f + 1 := ⟨fuel - 1, by omega⟩
    rw [List.flatMap_cons, List.append_assoc, decodeBody_escapeChar,
      ih f rest (by simpa using h)]
    rfl

theorem length_le_flatMap_escape (s : List Char) : s.length ≤ (s.flatMap escapeChar).length := by
  induction s with
  | nil => simp
  | cons c s ih =>
    have := escapeChar_length_pos c
    simp only [List.flatMap_cons, List.length_append, List.length_cons]
    omega

theorem skipSpace_cons (c : Char) (rest : List Char) (h : isSpace c = false) :
    skipSpace (c :: rest) = c :: rest := by
  simp [skipSpace, h]

theorem decodeElems_encodeString (s : String) (fuel : Nat) (d : Char) (rest1 : List Char)
    (hd : isSpace d = false) :
    decodeElems (fuel + 1) (encodeString s ++ d :: rest1) =
      if d = ',' then (decodeElems fuel rest1).map (fun l => s :: l)
      else if d = ']' then (if (skipSpace rest1).isEmpty then some [s] else none)
      else none := by
  have hb : decodeBody (s.data.flatMap escapeChar ++ '"' :: d :: rest1).length
      (s.data.flatMap escapeChar ++ '"' :: d :: rest1) = some (s.data, d :: rest1) := by
    apply decodeBody_encode
    have := length_le_flatMap_escape s.data
    simp only [List.length_append, List.length_cons]
    omega
  have he : encodeString s ++ d :: rest1 = '"' :: (s.data.flatMap escapeChar ++ '"' :: d :: rest1) := by
    simp [encodeString]
  rw [he, decodeElems, skipSpace_cons _ _ (by decide)]
  simp only [if_true, hb, afterElem, skipSpace_cons d rest1 hd]

theorem decodeElems_encodeElems (l : List String) (hl : l ≠ []) :
    ∀ fuel, l.length ≤ fuel → decodeElems fuel (encodeElems l ++ [']']) = some l := by
  induction l with
  | nil => exact absurd rfl hl
  | cons s t ih =>
    intro fuel hf
    obtain ⟨f, rfl⟩ : ∃ f, fuel = f + 1 := ⟨fuel - 1, by simp at hf; omega⟩
    cases t with
    | nil =>
      rw [encodeElems, decodeElems_encodeString s f ']' [] (by decide)]
      simp [skipSpace]
    | cons t ts =>
      rw [encodeElems, List.append_assoc, List.cons_append,
        decodeElems_encodeString s f ',' _ (by decide), if_pos rfl,
        ih (by simp) f (by simpa using hf)]
      rfl

theorem encodeElems_head (l : List String) (hl : l ≠ []) :
    ∃ tail, encodeElems l ++ [']'] = '"' :: tail := by
  cases l with
  | nil => exact absurd rfl hl
  | cons s t =>
    cases t with
    | nil => exact ⟨s.data.flatMap escapeChar ++ ['"', ']'], by simp [encodeElems, encodeString]⟩
    | cons t ts =>
      exact ⟨s.data.flatMap escapeChar ++ '"' :: ',' :: (encodeElems (t :: ts) ++ [']']),
        by simp [encodeElems, encodeString]⟩

theorem length_le_encodeElems (l : List String) : l.length ≤ (encodeElems l).length + 1 := by
  induction l with
  | nil => simp
  | cons s t ih =>
    cases t with
    | nil => simp
    | cons t ts =>
      simp only [encodeElems, List.length_append, List.length_cons] at ih ⊢
      omega

/-- Round trip of the JSON model. -/
theorem jsonUnmarshal_jsonMarshal (isNil : Bool) (l : List String) :
    jsonUnmarshal (jsonMarshal isNil l) = .ok l := by
  cases l with
  | nil => cases isNil <;> decide
  | cons s t =>
    obtain ⟨tail, ht⟩ := encodeElems_head (s :: t) (by simp)
    have hm : jsonMarshal isNil (s :: t) = String.mk ('[' :: (encodeElems (s :: t) ++ [']'])) := by
      simp [jsonMarshal]
    have hd := decodeElems_encodeElems (s :: t) (by simp)
      (String.mk ('[' :: (encodeElems (s :: t) ++ [']']))).length (by
        have := length_le_encodeElems (s :: t)
        simp only [String.length, List.length_cons, List.length_append, List.length_nil] at this ⊢
        omega)
    rw [hm]
    unfold jsonUnmarshal
    simp only [skipSpace_cons '[' _ (by decide)]
    rw [ht] at hd ⊢
    simp only [skipSpace_cons '"' _ (by decide)]
    rw [hd]
    simp

/-! ## The snapshot store -/

theorem rdbGet_rdbSet (db : Redis) (key value : String) (ttl : Int) :
    rdbGet (rdbSet db none key value ttl).1 none key = .ok value := by
  simp [rdbGet, rdbSet, List.lookup]

theorem saveURLs_ok_iff (key : String) (db : Redis) (fault : Option String) (s : List String)
    (isNil : Bool) : (SaveURLsToRedis key db fault s isNil).2 = none ↔ fault = none := by
  cases fault <;> simp [SaveURLsToRedis, rdbSet]

theorem saveURLs_db (key : String) (db : Redis) (s : List String) (isNil : Bool) :
    (SaveURLsToRedis key db none s isNil).1 = (rdbSet db none key (jsonMarshal isNil s) week).1 := by
  simp [SaveURLsToRedis, rdbSet]

theorem getPreviousURLs_of_get (db : Redis) (fault : Option String) (data : String)
    (h : rdbGet db fault "hackerone:previous_urls" = .ok data) (urls : List String)
    (hd : jsonUnmarshal data = .ok urls) : GetPreviousURLs db fault = .ok urls := by
  simp [GetPreviousURLs, h, hd]

/-! ## Claims on the snapshot store -/

/-- C8, as stated, fails for a key other than the one `GetPreviousURLs` reads: after a
successful save of `["a.com"]` under `"anubis:previous_subdomains"` on an empty server,
`GetPreviousURLs` reports that no previous URLs were found. -/
theorem C8_other_key_not_loaded :
    (SaveURLsToRedis "anubis:previous_subdomains" emptyRedis none ["a.com"] false).2 = none ∧
    GetPreviousURLs
      (SaveURLsToRedis "anubis:previous_subdomains" emptyRedis none ["a.com"] false).1 none =
      .error (GoError.errorf "no previous URLs found") := by
  decide

/-- C8 (amended): for the key `"hackerone:previous_urls"`, the only key `GetPreviousURLs`
reads, for every server state and every item list `s` (nil or not): after
`SaveURLsToRedis` succeeds, a load whose round trip to the server works returns `s`
without error, the JSON array written by the save being decoded back to `s`. -/
theorem C8_roundtrip_hackerone_key (db : Redis) (fault : Option String) (s : List String)
    (isNil : Bool)
    (hsave : (SaveURLsToRedis "hackerone:previous_urls" db fault s isNil).2 = none) :
    GetPreviousURLs (SaveURLsToRedis "hackerone:previous_urls" db fault s isNil).1 none =
      .ok s := by
  have hf : fault = none := (saveURLs_ok_iff _ db fault s isNil).1 hsave
  subst hf
  rw [saveURLs_db]
  exact getPreviousURLs_of_get _ none _ (rdbGet_rdbSet db _ _ _) s
    (jsonUnmarshal_jsonMarshal isNil s)

/-- C8 (amended) at `s = ["a.com", "b<.com"]` on an empty server. -/
theorem C8_roundtrip_hackerone_key_witness :
    GetPreviousURLs
      (SaveURLsToRedis "hackerone:previous_urls" emptyRedis none ["a.com", "b<.com"] false).1
      none = .ok ["a.com", "b<.com"] :=
  C8_roundtrip_hackerone_key emptyRedis none ["a.com", "b<.com"] false (by decide)

/-! ## Orchestration cycles -/

theorem unmarshal_text_ne (t : String) :
    "error unmarshaling URLs from Redis: " ++ t ≠ "no previous URLs found" := by
  intro h
  have := congrArg String.data h
  rw [String.data_append] at this
  simp at this

/-- Function `GetPreviousURLs` reports "no previous URLs found" exactly when the round trip worked
and the key is unset. -/
theorem getPreviousURLs_notFound_iff (db : Redis) (fault : Option String) :
    GetPreviousURLs db fault = .error (GoError.errorf "no previous URLs found") ↔
      rdbGet db fault "hackerone:previous_urls" = .error GoError.redisNil := by
  unfold GetPreviousURLs
  cases hg : rdbGet db fault "hackerone:previous_urls" with
  | error e =>
    cases e with
    | redisNil => simp
    | external msg => simp
    | errorf msg =>
      cases fault with
      | some m => simp [rdbGet] at hg
      | none =>
        simp only [rdbGet] at hg
        split at hg <;> cases hg
  | ok data =>
    cases hu : jsonUnmarshal data with
    | error e =>
      simp only [hu]
      simpa using unmarshal_text_ne e.text
    | ok urls => simp [hu]

theorem rdbGet_redisNil_iff (db : Redis) (fault : Option String) (key : String) :
    rdbGet db fault key = .error GoError.redisNil ↔ fault = none ∧ db.kv.lookup key = none := by
  cases fault with
  | some m => simp [rdbGet]
  | none =>
    cases hl : db.kv.lookup key <;> simp [rdbGet, hl]

theorem removed_of_nil (oc op : RangeOrder) (current : List String) :
    (CompareUniqueURLs oc op [] current).2 = [] := by
  apply List.eq_nil_iff_forall_not_mem.2
  intro x hx
  exact absurd ((mem_removed_iff oc op [] current x).1 hx).1 (List.not_mem_nil x)

theorem added_of_nil_eq_nil_iff (oc op : RangeOrder) (current : List String) :
    (CompareUniqueURLs oc op [] current).1 = [] ↔ current = [] := by
  constructor
  · intro h
    apply List.eq_nil_iff_forall_not_mem.2
    intro x hx
    have : x ∈ (CompareUniqueURLs oc op [] current).1 :=
      (mem_added_iff oc op [] current x).2 ⟨hx, List.not_mem_nil x⟩
    rw [h] at this
    exact absurd this (List.not_mem_nil x)
  · intro h
    apply List.eq_nil_iff_forall_not_mem.2
    intro x hx
    have := ((mem_added_iff oc op [] current x).1 hx).1
    rw [h] at this
    exact absurd this (List.not_mem_nil x)

theorem added_length_le (oc op : RangeOrder) (previous current : List String) :
    (CompareUniqueURLs oc op previous current).1.length ≤ current.length := by
  apply List.Subperm.length_le
  apply List.subperm_of_subset (added_nodup oc op previous current)
  intro x hx
  exact ((mem_added_iff oc op previous current x).1 hx).1

/-- Function `sendInChunks` with the chunk size 30 of `compareAndSave` returns. -/
theorem sendInChunks_thirty (items : List String) (title : String)
    (hn : items.length < 4611686018427387904) :
    ∃ sent, sendInChunks items title 30 = .ok sent := by
  obtain ⟨sent, h1, _⟩ :=
    sendLoop_spec items title 30 (totalChunksOf items.length 30) (by decide) (by decide) hn
      (items.length + 1) 0 [] (by omega)
  refine ⟨sent, ?_⟩
  unfold sendInChunks
  rw [if_neg (by decide)]
  simpa using h1

/-- Function `compareAndSave` after a failed `GET`, whatever the failure: the baseline is empty. -/
theorem compareAndSave_of_get_error (oc op : RangeOrder) (leftover : String → List String)
    (getFault : Option String) (pubFault : Nat → Option String) (setFault : Option String)
    (db : Redis) (current : List String) (e : GoError)
    (hg : rdbGet db getFault "anubis:previous_subdomains" = .error e) :
    compareAndSave oc op leftover getFault pubFault setFault db current =
      if (CompareUniqueURLs oc op [] current).1.length > 0 then
        match sendInChunks (CompareUniqueURLs oc op [] current).1 "🆕 Added Subdomains" 30 with
        | .error h => .error h
        | .ok sent =>
          .ok ([Effect.load "anubis:previous_subdomains", Effect.diff [] current,
              Effect.publish "telegram_notifications"
                (changeSummary (CompareUniqueURLs oc op [] current).1.length 0)] ++
              chunkEffects sent ++
              [Effect.save "anubis:previous_subdomains" (jsonMarshal false current) week],
            (rdbSet (publishChunks pubFault 1 sent
              (rdbPublish db (pubFault 0) "telegram_notifications"
                (changeSummary (CompareUniqueURLs oc op [] current).1.length 0)).1)
              setFault "anubis:previous_subdomains" (jsonMarshal false current) week).1)
      else
        .ok ([Effect.load "anubis:previous_subdomains", Effect.diff [] current,
            Effect.save "anubis:previous_subdomains" (jsonMarshal false current) week],
          (rdbSet db setFault "anubis:previous_subdomains" (jsonMarshal false current)
            week).1) := by
  have hr := removed_of_nil oc op current
  simp only [CompareUniqueURLs] at hr
  unfold compareAndSave
  simp only [hg, CompareUniqueURLs, hr, List.length_nil, lt_self_iff_false, or_false, gt_iff_lt]
  split
  · split <;> simp
  · rfl

/-- In `main` of hackerone.go every error of `GetPreviousURLs` leads to the branch that
stores the current set and starts the next pass. -/
theorem hackeroneCycle_of_load_error (oc op : RangeOrder) (collected : Collected)
    (getFault : Option String) (pubFault : Nat → Option String) (setFault : Option String)
    (db : Redis) (e : GoError) (hc : collected.err = none)
    (hl : GetPreviousURLs db getFault = .error e) :
    hackeroneCycle oc op collected getFault pubFault setFault db =
      ([Effect.collect, Effect.load "hackerone:previous_urls",
        Effect.save "hackerone:previous_urls" (jsonMarshal true (GetUniqueURLs collected.urls))
          week],
        (SaveURLsToRedis "hackerone:previous_urls" db setFault (GetUniqueURLs collected.urls)
          true).1) := by
  simp [hackeroneCycle, hc, hl]

theorem saveURLs_published (key : String) (db : Redis) (fault : Option String)
    (s : List String) (isNil : Bool) :
    (SaveURLsToRedis key db fault s isNil).1.published = db.published := by
  cases fault <;> simp [SaveURLsToRedis, rdbSet]

/-- Function `compareAndSave` after a failed `GET`: it returns, having compared the current set
with an empty baseline, announced every current item as added, and stored the current
set. -/
theorem compareAndSave_empty_baseline (oc op : RangeOrder) (leftover : String → List String)
    (getFault : Option String) (pubFault : Nat → Option String) (setFault : Option String)
    (db : Redis) (current : List String) (e : GoError)
    (hg : rdbGet db getFault "anubis:previous_subdomains" = .error e)
    (hn : current.length < 4611686018427387904) :
    ∃ sent effects db',
      sendInChunks (CompareUniqueURLs oc op [] current).1 "🆕 Added Subdomains" 30 = .ok sent ∧
      compareAndSave oc op leftover getFault pubFault setFault db current =
        .ok (effects, db') ∧
      effects = [Effect.load "anubis:previous_subdomains", Effect.diff [] current] ++
        (if current = [] then []
          else Effect.publish "telegram_notifications"
            (changeSummary (CompareUniqueURLs oc op [] current).1.length 0) ::
              chunkEffects sent) ++
        [Effect.save "anubis:previous_subdomains" (jsonMarshal false current) week] ∧
      (setFault = none →
        rdbGet db' none "anubis:previous_subdomains" = .ok (jsonMarshal false current)) := by
  obtain ⟨sent, hsent⟩ := sendInChunks_thirty (CompareUniqueURLs oc op [] current).1
    "🆕 Added Subdomains" (lt_of_le_of_lt (added_length_le oc op [] current) hn)
  have hrun := compareAndSave_of_get_error oc op leftover getFault pubFault setFault db
    current e hg
  by_cases hcur : current = []
  · have hadd : (CompareUniqueURLs oc op [] current).1 = [] :=
      (added_of_nil_eq_nil_iff oc op current).2 hcur
    rw [hadd] at hrun
    simp only [List.length_nil, gt_iff_lt, lt_self_iff_false, if_false] at hrun
    refine ⟨sent, _, _, hsent, hrun, by simp [hcur], ?_⟩
    rintro rfl
    exact rdbGet_rdbSet _ _ _ _
  · have hadd : (CompareUniqueURLs oc op [] current).1 ≠ [] :=
      fun h => hcur ((added_of_nil_eq_nil_iff oc op current).1 h)
    rw [if_pos (List.length_pos.2 hadd), hsent] at hrun
    refine ⟨sent, _, _, hsent, hrun, by simp [hcur], ?_⟩
    rintro rfl
    exact rdbGet_rdbSet _ _ _ _

/-! ## Claims on the orchestration cycles -/

/-- C9, as stated, fails in `compareAndSave`: with the key unset and the current set
`["a.example"]` it compares against an empty baseline and publishes two messages before
it saves. -/
theorem C9_subfinder_seed_publishes :
    rdbGet emptyRedis none "anubis:previous_subdomains" = .error GoError.redisNil ∧
    compareAndSave RangeOrder.storage RangeOrder.storage (fun _ => []) none (fun _ => none)
        none emptyRedis ["a.example"] =
      .ok ([Effect.load "anubis:previous_subdomains", Effect.diff [] ["a.example"],
          Effect.publish "telegram_notifications"
            "Subdomain Changes Detected\nAdded: 1 | Removed: 0",
          Effect.publish "telegram_notifications"
            "🆕 Added Subdomains (1/1) - 1 domains:\na.example",
          Effect.sleep 3100000000,
          Effect.save "anubis:previous_subdomains" "[\"a.example\"]" 604800000000000],
        { kv := [("anubis:previous_subdomains",
            { value := "[\"a.example\"]", ttl := 604800000000000 })]
          published := [("telegram_notifications",
              "Subdomain Changes Detected\nAdded: 1 | Removed: 0"),
            ("telegram_notifications",
              "🆕 Added Subdomains (1/1) - 1 domains:\na.example")] }) := by
  decide

/-- C9 (amended): when the baseline load reports NotFound (key unset): the URL cycle of
hackerone `main` performs no diff, publishes nothing, and saves the current item set
under the snapshot key (a later load returns it when the `SET` went through);
`compareAndSave` of subfinder also saves the current set under its snapshot key, but it
treats the unset key as an empty baseline: it compares the current set with the empty
set and, unless the current set is empty, publishes the summary and the chunked list of
added items. -/
theorem C9_seed_cycles :
    (∀ (oc op : RangeOrder) (collected : Collected) (pubFault : Nat → Option String)
        (setFault : Option String) (db : Redis),
      collected.err = none →
      rdbGet db none "hackerone:previous_urls" = .error GoError.redisNil →
      hackeroneCycle oc op collected none pubFault setFault db =
        ([Effect.collect, Effect.load "hackerone:previous_urls",
          Effect.save "hackerone:previous_urls"
            (jsonMarshal true (GetUniqueURLs collected.urls)) week],
          (SaveURLsToRedis "hackerone:previous_urls" db setFault
            (GetUniqueURLs collected.urls) true).1) ∧
      (hackeroneCycle oc op collected none pubFault setFault db).2.published = db.published ∧
      (setFault = none →
        GetPreviousURLs (hackeroneCycle oc op collected none pubFault setFault db).2 none =
          .ok (GetUniqueURLs collected.urls))) ∧
    (∀ (oc op : RangeOrder) (leftover : String → List String) (pubFault : Nat → Option String)
        (setFault : Option String) (db : Redis) (current : List String),
      rdbGet db none "anubis:previous_subdomains" = .error GoError.redisNil →
      current.length < 4611686018427387904 →
      ∃ sent effects db',
        sendInChunks (CompareUniqueURLs oc op [] current).1 "🆕 Added Subdomains" 30 =
          .ok sent ∧
        compareAndSave oc op leftover none pubFault setFault db current = .ok (effects, db') ∧
        effects = [Effect.load "anubis:previous_subdomains", Effect.diff [] current] ++
          (if current = [] then []
            else Effect.publish "telegram_notifications"
              (changeSummary (CompareUniqueURLs oc op [] current).1.length 0) ::
                chunkEffects sent) ++
          [Effect.save "anubis:previous_subdomains" (jsonMarshal false current) week] ∧
        (setFault = none →
          rdbGet db' none "anubis:previous_subdomains" = .ok (jsonMarshal false current))) := by
  constructor
  · intro oc op collected pubFault setFault db hc hg
    have hl := (getPreviousURLs_notFound_iff db none).2 hg
    have hrun := hackeroneCycle_of_load_error oc op collected none pubFault setFault db _ hc hl
    refine ⟨hrun, ?_, ?_⟩
    · rw [hrun]
      exact saveURLs_published _ _ _ _ _
    · rintro rfl
      rw [hrun, saveURLs_db]
      exact getPreviousURLs_of_get _ none _ (rdbGet_rdbSet db _ _ _) _
        (jsonUnmarshal_jsonMarshal true _)
  · intro oc op leftover pubFault setFault db current hg hn
    exact compareAndSave_empty_baseline oc op leftover none pubFault setFault db current _ hg hn

/-- C9 (amended) on an empty server: the hackerone cycle stores the two collected URLs and
publishes nothing. -/
theorem C9_seed_cycles_witness :
    (hackeroneCycle RangeOrder.storage RangeOrder.storage
      { urls := ["a.com", "a.com", "b.com"], err := none, fetchCalls := [] } none
      (fun _ => none) none emptyRedis).2.published = [] :=
  (C9_seed_cycles.1 RangeOrder.storage RangeOrder.storage
    { urls := ["a.com", "a.com", "b.com"], err := none, fetchCalls := [] }
    (fun _ => none) none emptyRedis rfl (by decide)).2.1

/-- C10, as stated, fails in `compareAndSave`: with the snapshot `["old.example"]` stored
and the `GET` failing with a transport error, the cycle compares the current set
`["new.example"]` with an empty baseline, announces it as added, and overwrites the stored
snapshot. -/
theorem C10_subfinder_transport_error_reseeds :
    compareAndSave RangeOrder.storage RangeOrder.storage (fun _ => []) (some "i/o timeout")
        (fun _ => none) none
        { kv := [("anubis:previous_subdomains",
            { value := "[\"old.example\"]", ttl := 604800000000000 })]
          published := [] }
        ["new.example"] =
      .ok ([Effect.load "anubis:previous_subdomains", Effect.diff [] ["new.example"],
          Effect.publish "telegram_notifications"
            "Subdomain Changes Detected\nAdded: 1 | Removed: 0",
          Effect.publish "telegram_notifications"
            "🆕 Added Subdomains (1/1) - 1 domains:\nnew.example",
          Effect.sleep 3100000000,
          Effect.save "anubis:previous_subdomains" "[\"new.example\"]" 604800000000000],
        { kv := [("anubis:previous_subdomains",
            { value := "[\"new.example\"]", ttl := 604800000000000 })]
          published := [("telegram_notifications",
              "Subdomain Changes Detected\nAdded: 1 | Removed: 0"),
            ("telegram_notifications",
              "🆕 Added Subdomains (1/1) - 1 domains:\nnew.example")] }) := by
  decide

/-- A stored array holding `null` is decoded without error: the element is the empty
string. -/
theorem getPreviousURLs_null_element :
    GetPreviousURLs
      { kv := [("hackerone:previous_urls", { value := "[null]", ttl := 604800000000000 })]
        published := [] } none = .ok [""] := by
  decide

/-- An error of `GetPreviousURLs` that reads "no previous URLs found" is the NotFound
outcome of an unset key, unless the transport error itself has that text. -/
theorem getPreviousURLs_text_notFound (db : Redis) (fault : Option String) (e : GoError)
    (hr : GetPreviousURLs db fault = .error e) (ht : e.text = "no previous URLs found") :
    (fault = none ∧ db.kv.lookup "hackerone:previous_urls" = none) ∨
      fault = some "no previous URLs found" := by
  cases fault with
  | some msg =>
    right
    have h : GetPreviousURLs db (some msg) = .error (GoError.external msg) := by
      simp [GetPreviousURLs, rdbGet]
    rw [h] at hr
    cases hr
    rw [← ht]
    rfl
  | none =>
    left
    refine ⟨rfl, ?_⟩
    cases hl : db.kv.lookup "hackerone:previous_urls" with
    | none => rfl
    | some entry =>
      exfalso
      have hg : rdbGet db none "hackerone:previous_urls" = .ok entry.value := by
        simp [rdbGet, hl]
      unfold GetPreviousURLs at hr
      rw [hg] at hr
      cases hu : jsonUnmarshal entry.value with
      | error e2 =>
        simp only [hu] at hr
        cases hr
        exact unmarshal_text_ne e2.text ht
      | ok urls =>
        simp only [hu] at hr
        cases hr

/-- C10 (amended): `GetPreviousURLs` returns the NotFound outcome ("no previous URLs
found") exactly when the round trip worked and the key is unset. A transport error is
returned unchanged, with its own text, and a stored value that `json.Unmarshal` rejects
gives an error whose text starts with "error unmarshaling URLs from Redis: " (the rest
is the library's text, which is not modelled): an error
reading "no previous URLs found" therefore comes from an unset key, or from a transport
error that itself has this text. `compareAndSave` makes no such distinction: after any
failed `GET` (unset key or transport error) it returns, having compared the current set
with an empty baseline and stored the current set in place of the snapshot. -/
theorem C10_load_errors :
    (∀ (db : Redis) (fault : Option String),
      GetPreviousURLs db fault = .error (GoError.errorf "no previous URLs found") ↔
        fault = none ∧ db.kv.lookup "hackerone:previous_urls" = none) ∧
    (∀ (db : Redis) (msg : String),
      GetPreviousURLs db (some msg) = .error (GoError.external msg) ∧
      (GoError.external msg).text = msg) ∧
    (∀ (db : Redis) (fault : Option String) (e : GoError),
      GetPreviousURLs db fault = .error e → e.text = "no previous URLs found" →
      (fault = none ∧ db.kv.lookup "hackerone:previous_urls" = none) ∨
        fault = some "no previous URLs found") ∧
    (∀ (db : Redis) (data : String) (e : GoError),
      rdbGet db none "hackerone:previous_urls" = .ok data → jsonUnmarshal data = .error e →
      ∃ detail,
        GetPreviousURLs db none =
          .error (GoError.errorf ("error unmarshaling URLs from Redis: " ++ detail)) ∧
        (GoError.errorf ("error unmarshaling URLs from Redis: " ++ detail)).text ≠
          "no previous URLs found") ∧
    (∀ (oc op : RangeOrder) (leftover : String → List String) (getFault : Option String)
        (pubFault : Nat → Option String) (setFault : Option String) (db : Redis)
        (current : List String) (e : GoError),
      rdbGet db getFault "anubis:previous_subdomains" = .error e →
      current.length < 4611686018427387904 →
      ∃ sent effects db',
        sendInChunks (CompareUniqueURLs oc op [] current).1 "🆕 Added Subdomains" 30 =
          .ok sent ∧
        compareAndSave oc op leftover getFault pubFault setFault db current =
          .ok (effects, db') ∧
        effects = [Effect.load "anubis:previous_subdomains", Effect.diff [] current] ++
          (if current = [] then []
            else Effect.publish "telegram_notifications"
              (changeSummary (CompareUniqueURLs oc op [] current).1.length 0) ::
                chunkEffects sent) ++
          [Effect.save "anubis:previous_subdomains" (jsonMarshal false current) week] ∧
        (setFault = none →
          rdbGet db' none "anubis:previous_subdomains" = .ok (jsonMarshal false current))) := by
  refine ⟨?_, ?_, ?_, ?_, ?_⟩
  · intro db fault
    rw [getPreviousURLs_notFound_iff, rdbGet_redisNil_iff]
  · intro db msg
    exact ⟨by simp [GetPreviousURLs, rdbGet], rfl⟩
  · intro db fault e hr ht
    exact getPreviousURLs_text_notFound db fault e hr ht
  · intro db data e hg hu
    exact ⟨e.text, by simp [GetPreviousURLs, hg, hu], unmarshal_text_ne e.text⟩
  · intro oc op leftover getFault pubFault setFault db current e hg hn
    exact compareAndSave_empty_baseline oc op leftover getFault pubFault setFault db current
      e hg hn

/-- C10 (amended) at a transport error with a stored snapshot: the new set replaces it. -/
theorem C10_load_errors_witness :
    ∃ sent effects db',
      sendInChunks (CompareUniqueURLs RangeOrder.storage RangeOrder.storage []
        ["new.example"]).1 "🆕 Added Subdomains" 30 = .ok sent ∧
      compareAndSave RangeOrder.storage RangeOrder.storage (fun _ => []) (some "i/o timeout")
        (fun _ => none) none
        { kv := [("anubis:previous_subdomains",
            { value := "[\"old.example\"]", ttl := 604800000000000 })]
          published := [] } ["new.example"] = .ok (effects, db') ∧
      rdbGet db' none "anubis:previous_subdomains" = .ok "[\"new.example\"]" := by
  obtain ⟨sent, effects, db', h1, h2, _, h4⟩ :=
    C10_load_errors.2.2.2.2 RangeOrder.storage RangeOrder.storage (fun _ => [])
      (some "i/o timeout") (fun _ => none) none
      { kv := [("anubis:previous_subdomains",
          { value := "[\"old.example\"]", ttl := 604800000000000 })]
        published := [] } ["new.example"] (GoError.external "i/o timeout") rfl (by decide)
  exact ⟨sent, effects, db', h1, h2, h4 rfl⟩

/-- The URL cycle of hackerone `main` after a transport error of the load, with a
snapshot stored: it takes the branch that logs "No previous URLs found" and replaces the
snapshot by the current set, without comparing. -/
theorem hackeroneCycle_transport_error :
    hackeroneCycle RangeOrder.storage RangeOrder.storage
        { urls := ["new.com"], err := none, fetchCalls := [] } (some "i/o timeout")
        (fun _ => none) none
        { kv := [("hackerone:previous_urls",
            { value := "[\"old.com\"]", ttl := 604800000000000 })]
          published := [] } =
      ([Effect.collect, Effect.load "hackerone:previous_urls",
          Effect.save "hackerone:previous_urls" "[\"new.com\"]" 604800000000000],
        { kv := [("hackerone:previous_urls",
            { value := "[\"new.com\"]", ttl := 604800000000000 })]
          published := [] }) := by
  decide

/-! ## Further claims on `CompareUniqueURLs` -/

/-- C11: for every item list `X` (duplicates allowed) and every iteration order of the map
loops, `CompareUniqueURLs X X` returns an empty `added` and an empty `removed`. -/
theorem C11_compareUniqueURLs_self (oc op : RangeOrder) (X : List String) :
    CompareUniqueURLs oc op X X = ([], []) := by
  apply Prod.ext
  · apply List.eq_nil_iff_forall_not_mem.2
    intro x hx
    have h := (mem_added_iff oc op X X x).1 hx
    exact h.2 h.1
  · apply List.eq_nil_iff_forall_not_mem.2
    intro x hx
    have h := (mem_removed_iff oc op X X x).1 hx
    exact h.2 h.1

/-- C12, as stated, fails: for `P = ["a.com","b.com"]` and `C = ["b.com","c.com"]` the
item `a.com` is in `set(added) ∪ set(P)` and not in `set(C) ∪ (set(P) \ set(removed))`. -/
theorem C12_spec_equation_fails :
    (CompareUniqueURLs RangeOrder.storage RangeOrder.storage ["a.com", "b.com"]
        ["b.com", "c.com"]).1.toFinset ∪ ["a.com", "b.com"].toFinset ≠
      ["b.com", "c.com"].toFinset ∪ (["a.com", "b.com"].toFinset \
        (CompareUniqueURLs RangeOrder.storage RangeOrder.storage ["a.com", "b.com"]
          ["b.com", "c.com"]).2.toFinset) := by
  decide

/-- C12 (amended): for all item lists `P` and `C`, with
`(added, removed) = CompareUniqueURLs P C`: `set(added) ∪ set(P) = set(C) ∪ set(removed)`;
and the equation of the spec, `set(added) ∪ set(P) = set(C) ∪ (set(P) \ set(removed))`,
holds if and only if `removed` is empty, that is, if and only if every item of `P` occurs
in `C`. -/
theorem C12_set_equations (oc op : RangeOrder) (P C : List String) :
    ((CompareUniqueURLs oc op P C).1.toFinset ∪ P.toFinset =
      C.toFinset ∪ (CompareUniqueURLs oc op P C).2.toFinset) ∧
    ((CompareUniqueURLs oc op P C).1.toFinset ∪ P.toFinset =
      C.toFinset ∪ (P.toFinset \ (CompareUniqueURLs oc op P C).2.toFinset) ↔
        (CompareUniqueURLs oc op P C).2 = []) ∧
    ((CompareUniqueURLs oc op P C).2 = [] ↔ ∀ x ∈ P, x ∈ C) := by
  have hrem : (CompareUniqueURLs oc op P C).2 = [] ↔ ∀ x ∈ P, x ∈ C := by
    rw [List.eq_nil_iff_forall_not_mem]
    constructor
    · intro h x hx
      by_contra hc
      exact h x ((mem_removed_iff oc op P C x).2 ⟨hx, hc⟩)
    · intro h x hx
      have := (mem_removed_iff oc op P C x).1 hx
      exact this.2 (h x this.1)
  refine ⟨?_, ?_, hrem⟩
  · ext x
    simp only [Finset.mem_union, List.mem_toFinset, mem_added_iff, mem_removed_iff]
    tauto
  · constructor
    · intro heq
      rw [hrem]
      intro x hx
      have hl : x ∈ (CompareUniqueURLs oc op P C).1.toFinset ∪ P.toFinset := by
        simp only [Finset.mem_union, List.mem_toFinset]
        exact Or.inr hx
      rw [heq] at hl
      simp only [Finset.mem_union, Finset.mem_sdiff, List.mem_toFinset, mem_removed_iff] at hl
      tauto
    · intro hnil
      have hsub := hrem.1 hnil
      ext x
      simp only [Finset.mem_union, Finset.mem_sdiff, List.mem_toFinset, mem_added_iff,
        mem_removed_iff]
      have := hsub x
      tauto

/-! ## The loop of hackerone `main` -/

/-- Every pass starts with the call of the collector. -/
theorem hackeroneCycle_starts_with_collect (oc op : RangeOrder) (collected : Collected)
    (getFault : Option String) (pubFault : Nat → Option String) (setFault : Option String)
    (db : Redis) :
    ∃ rest, (hackeroneCycle oc op collected getFault pubFault setFault db).1 =
      Effect.collect :: rest := by
  unfold hackeroneCycle
  cases collected.err with
  | some e => exact ⟨[], rfl⟩
  | none =>
    cases GetPreviousURLs db getFault with
    | error e => exact ⟨_, rfl⟩
    | ok previous => exact ⟨_, rfl⟩

/-- A pass whose load succeeds runs to the end of the loop body: it compares, saves, and
sleeps 5 minutes as its last action. -/
theorem hackeroneCycle_completed_sleeps (oc op : RangeOrder) (collected : Collected)
    (getFault : Option String) (pubFault : Nat → Option String) (setFault : Option String)
    (db : Redis) (previous : List String) (hc : collected.err = none)
    (hl : GetPreviousURLs db getFault = .ok previous) :
    (hackeroneCycle oc op collected getFault pubFault setFault db).1.getLast? =
        some (Effect.sleep 300000000000) ∧
      Effect.diff previous (GetUniqueURLs collected.urls) ∈
        (hackeroneCycle oc op collected getFault pubFault setFault db).1 := by
  simp only [hackeroneCycle, hc, hl]
  constructor
  · rw [List.getLast?_append]
    rfl
  · simp

/-! ## Claims on the loop of hackerone `main` -/

/-- C13 (the code at a failed collection): when `GetAllUrlsProducer` returns an error, the
pass consists of the collection alone: no load, no diff, no publish, no save, the server
is unchanged, and there is no sleep either, because `continue` jumps over the
`time.Sleep(5 * time.Minute)` at the end of the loop body. In the loop the collection of
the next pass therefore follows the failed one at once. -/
theorem C13_failed_collection_no_wait (oc op : RangeOrder) (urls calls : List String)
    (e : GoError) (getFault : Option String) (pubFault : Nat → Option String)
    (setFault : Option String) (db : Redis) (next : CycleInput) :
    hackeroneCycle oc op { urls := urls, err := some e, fetchCalls := calls } getFault pubFault
        setFault db = ([Effect.collect], db) ∧
    (∃ rest,
      (hackeroneLoop
        [{ oc := oc, op := op, collected := { urls := urls, err := some e, fetchCalls := calls },
            getFault := getFault, pubFault := pubFault, setFault := setFault }, next] db).1 =
        Effect.collect :: Effect.collect :: rest) := by
  refine ⟨rfl, ?_⟩
  obtain ⟨rest, hrest⟩ := hackeroneCycle_starts_with_collect next.oc next.op next.collected
    next.getFault next.pubFault next.setFault db
  refine ⟨rest, ?_⟩
  simp only [hackeroneLoop, hackeroneCycle, List.append_nil, List.singleton_append]
  simp only [hackeroneCycle] at hrest
  rw [hrest]

/-- Two passes with a failing collector on a server holding a snapshot: the trace is the
two collections, with nothing in between, and the snapshot is untouched; a pass that
completes ends with the 5-minute sleep. -/
theorem hackeroneLoop_failed_twice :
    hackeroneLoop
        [{ oc := RangeOrder.storage, op := RangeOrder.storage
           collected := { urls := [], fetchCalls := ["p1"]
                          err := some (GoError.errorf "encountered errors while fetching scopes") }
           getFault := none, pubFault := fun _ => none, setFault := none },
         { oc := RangeOrder.storage, op := RangeOrder.storage
           collected := { urls := [], fetchCalls := ["p1"]
                          err := some (GoError.errorf "encountered errors while fetching scopes") }
           getFault := none, pubFault := fun _ => none, setFault := none }]
        { kv := [("hackerone:previous_urls",
            { value := "[\"old.com\"]", ttl := 604800000000000 })]
          published := [] } =
      ([Effect.collect, Effect.collect],
        { kv := [("hackerone:previous_urls",
            { value := "[\"old.com\"]", ttl := 604800000000000 })]
          published := [] }) ∧
    (hackeroneLoop
        [{ oc := RangeOrder.storage, op := RangeOrder.storage
           collected := { urls := ["old.com"], fetchCalls := ["p1"], err := none }
           getFault := none, pubFault := fun _ => none, setFault := none }]
        { kv := [("hackerone:previous_urls",
            { value := "[\"old.com\"]", ttl := 604800000000000 })]
          published := [] }).1 =
      [Effect.collect, Effect.load "hackerone:previous_urls",
        Effect.diff ["old.com"] ["old.com"],
        Effect.save "hackerone:previous_urls" "[\"old.com\"]" 604800000000000,
        Effect.sleep 300000000000] := by
  decide

end BugBounty
